import Mathlib

/-!
md-server: a verification development.

Shallow embedding of `doc_server.go` and `markdown.go` (package `main` of
`mitch000001/md-server`) together with the parts of Go's standard library the
program's behaviour depends on (`bytes.Reader`, `path.Clean`, `filepath.Join`,
`filepath.Dir`, `filepath.Walk`, `fmt.Sprintf` with the `%s` verb).

Conventions.
* Go `string` and `[]byte` values are lists of bytes (`Bytes`).
* A Go function that can panic returns an `Outcome`; state that the function
  mutates (the disk, the package variable `cleanupFuncs`, the requests sent to
  the remote endpoint) is threaded explicitly as a `World`.
* Libraries that are not part of the repository (the Markdown renderer, the
  generated asset table, the delegate `http.Dir`, the HTTP client) are fields
  of an environment record `Env`.
-/

namespace MdServer

/-! ## Bytes and strings -/

/-- A Go `byte`. -/
abbrev Byte := Fin 256

/-- A Go `[]byte` or `string`. -/
abbrev Bytes := List Byte

/-- The bytes of a string literal. All literals of the program are ASCII, for
which the code point of a character is its single UTF-8 byte. -/
def str (s : String) : Bytes := s.toList.map (fun c => Fin.ofNat c.toNat)

/-- The byte `/`. -/
def slash : Byte := 47

/-- The byte `.`. -/
def dot : Byte := 46

/-- The byte `%`. -/
def percent : Byte := 37

/-- The byte `s`. -/
def letterS : Byte := 115

/-! ## Go standard library: `path.Clean`, `filepath.Join`, `filepath.Dir` (Unix) -/

/-- The inner loop of the `..` case of `Clean`:
`for out.w > dotdot && out.index(out.w) != '/' { out.w-- }`, started at `w`
and returning the final `out.w`. `out` is the content of the buffer before the
backtracking started. -/
def backtrack (out : Bytes) (dotdot : Nat) : Nat → Nat
  | 0 => 0
  | w + 1 =>
    if w + 1 > dotdot ∧ out.getD (w + 1) 0 ≠ slash then backtrack out dotdot w else w + 1

/-- The main loop `for r < n { switch ... }` of `Clean`. `rest` is `path[r:]`,
`out` is the logical content `buf[:w]` of the `lazybuf`, so `out.w` is
`out.length`. Every iteration consumes at least one byte of `rest`; the first
argument bounds the number of iterations. The loop returns `out` and
`dotdot` as they are when it ends. -/
def cleanLoop (rooted : Bool) : Nat → Bytes → Bytes → Nat → Bytes × Nat
  | 0, _, out, dotdot => (out, dotdot)
  | fuel + 1, rest, out, dotdot =>
    match rest with
    | [] => (out, dotdot)
    | c :: t =>
      if c = slash then
        -- empty path element
        cleanLoop rooted fuel t out dotdot
      else if c = dot ∧ (t = [] ∨ t.head? = some slash) then
        -- . element
        cleanLoop rooted fuel t out dotdot
      else if c = dot ∧ t.head? = some dot ∧ (t.tail = [] ∨ t.tail.head? = some slash) then
        -- .. element: remove to last /
        if out.length > dotdot then
          cleanLoop rooted fuel t.tail
            (out.take (backtrack out dotdot (out.length - 1))) dotdot
        else if rooted = false then
          -- cannot backtrack, but not rooted, so append .. element
          let out1 := if out.length > 0 then out ++ [slash] else out
          let out2 := out1 ++ [dot, dot]
          cleanLoop rooted fuel t.tail out2 out2.length
        else
          cleanLoop rooted fuel t.tail out dotdot
      else
        -- real path element: add slash if needed, then copy the element
        let out1 :=
          if (rooted = true ∧ out.length ≠ 1) ∨ (rooted = false ∧ out.length ≠ 0)
          then out ++ [slash] else out
        cleanLoop rooted fuel (rest.dropWhile (fun b => b ≠ slash))
          (out1 ++ rest.takeWhile (fun b => b ≠ slash)) dotdot

/-- Go's `path.Clean`, which is also `filepath.Clean` on Unix. The loop is given
one iteration more than the path has bytes, which it never uses up: its result
is the same for every bound that is at least the number of bytes left. -/
def Clean (path : Bytes) : Bytes :=
  match path with
  | [] => [dot]
  | c :: t =>
    let rooted : Bool := decide (c = slash)
    let out :=
      if rooted then (cleanLoop rooted (path.length + 1) t [slash] 1).1
      else (cleanLoop rooted (path.length + 1) path [] 0).1
    if out.length = 0 then [dot] else out

/-- Go's `filepath.Join` for two elements on Unix: the elements from the first
non-empty one on are joined with `/` and cleaned; all empty gives `""`. -/
def Join (a b : Bytes) : Bytes :=
  if a ≠ [] then Clean (a ++ [slash] ++ b)
  else if b ≠ [] then Clean b
  else []

/-- The index scan of `filepath.Dir`: `path[:i+1]` where `i` is the index of
the last `/` (`-1` when there is none). -/
def upToLastSlash (path : Bytes) : Bytes :=
  (path.reverse.dropWhile (fun b => b ≠ slash)).reverse

/-- Go's `filepath.Dir` on Unix (the volume name is empty). -/
def Dir (path : Bytes) : Bytes := Clean (upToLastSlash path)

/-! ## Go standard library: `fmt.Sprintf` restricted to literal text, `%s` and `%%` -/

/-- The output of `fmt.Sprintf(format, args...)` for formats built from literal
bytes, `%%` and the verb `%s` applied to string arguments. -/
def Sprintf : Bytes → List Bytes → Bytes
  | [], _ => []
  | c :: rest, args =>
    if c = percent then
      match rest with
      | [] => str "%!(NOVERB)"
      | d :: rest2 =>
        if d = letterS then
          match args with
          | a :: as => a ++ Sprintf rest2 as
          | [] => str "%!s(MISSING)" ++ Sprintf rest2 []
        else if d = percent then percent :: Sprintf rest2 args
        else c :: d :: Sprintf rest2 args
    else c :: Sprintf rest args

/-! ## Errors, panics and outcomes -/

/-- A Go `error` value. -/
structure Err where
  msg : String
  deriving DecidableEq, Repr

/-- The error `io.EOF`. -/
def EOF : Err := ⟨"EOF"⟩

/-- The value a Go `panic` carries in this program. -/
inductive PanicVal
  | err (e : Err)
  | errs (es : List Err)
  | nilDeref
  deriving DecidableEq, Repr

/-- How a call of a Go function ends: it returns a value or it panics. -/
inductive Outcome (α : Type)
  | returned (a : α)
  | panicked (p : PanicVal)
  deriving DecidableEq, Repr

/-! ## Go standard library: `bytes.Reader` -/

/-- The struct `bytes.Reader`: the slice, the current reading index (an
`int64`) and the index of the previous rune. -/
structure Reader where
  s : Bytes
  i : Int
  prevRune : Int
  deriving DecidableEq, Repr

/-- Go's `bytes.NewReader`. -/
def NewReader (b : Bytes) : Reader := ⟨b, 0, -1⟩

/-- Go's `(*bytes.Reader).Len`: the number of bytes of the unread portion. -/
def Reader.Len (r : Reader) : Int :=
  if r.i ≥ (r.s.length : Int) then 0 else (r.s.length : Int) - r.i

/-- Go's `(*bytes.Reader).Read` into a buffer of length `n`: the bytes copied
and the error, and the reader afterwards. At the end of the slice it returns
`io.EOF`; otherwise it copies as many bytes as fit. -/
def Reader.Read (r : Reader) (n : Nat) : (Bytes × Option Err) × Reader :=
  if r.i ≥ (r.s.length : Int) then (([], some EOF), r)
  else
    let data := (r.s.drop r.i.toNat).take n
    ((data, none), { r with i := r.i + (data.length : Int), prevRune := -1 })

/-- Two's complement wrap-around of `int64` arithmetic. -/
def wrap64 (x : Int) : Int := (x + 2 ^ 63) % 2 ^ 64 - 2 ^ 63

/-- Go's `(*bytes.Reader).Seek`. -/
def Reader.Seek (r : Reader) (offset : Int) (whence : Int) : (Int × Option Err) × Reader :=
  let r1 := { r with prevRune := -1 }
  if whence = 0 ∨ whence = 1 ∨ whence = 2 then
    let abs : Int :=
      if whence = 0 then offset
      else if whence = 1 then wrap64 (r.i + offset)
      else wrap64 ((r.s.length : Int) + offset)
    if abs < 0 then ((0, some ⟨"bytes.Reader.Seek: negative position"⟩), r1)
    else ((abs, none), { r1 with i := abs })
  else ((0, some ⟨"bytes.Reader.Seek: invalid whence"⟩), r1)

/-! ## The delegate filesystem: `os.FileInfo` and the handles of `http.Dir` -/

/-- The answers of an `os.FileInfo` of the underlying filesystem. -/
structure FileInfo where
  Name : Bytes
  Size : Int
  Mode : Nat
  ModTime : Int
  IsDir : Bool
  deriving DecidableEq, Repr

/-- A handle returned by the delegate `http.Dir.Open` (an `*os.File`): what its
methods answer, and its mutable positions. -/
structure OSFile where
  fd : Nat
  info : FileInfo
  statErr : Option Err
  data : Bytes
  off : Nat
  readErr : Option Err
  entries : List FileInfo
  dirOff : Nat
  closed : Bool
  closeErr : Option Err
  deriving DecidableEq, Repr

/-- The error an `*os.File` answers with once it has been closed. -/
def errClosed : Err := ⟨"file already closed"⟩

/-- The error `Readdir` answers with on a handle that is not a directory. -/
def errNotDir : Err := ⟨"not a directory"⟩

/-- `Stat` of a delegate handle; it fails on a closed handle. -/
def OSFile.Stat (f : OSFile) : Option FileInfo × Option Err :=
  if f.closed then (none, some errClosed)
  else
    match f.statErr with
    | some err => (none, some err)
    | none => (some f.info, none)

/-- `ioutil.ReadAll` on a delegate handle: everything from the current offset
to the end of the file, or the error the read hits; it fails on a closed
handle. -/
def ReadAll (f : OSFile) : (Bytes × Option Err) × OSFile :=
  if f.closed then (([], some errClosed), f)
  else
    match f.readErr with
    | some err => (([], some err), f)
    | none => ((f.data.drop f.off, none), { f with off := f.data.length })

/-- `Readdir` of a delegate handle: for `n > 0` at most `n` further entries
and `io.EOF` when none is left, otherwise all remaining entries. It fails on a
closed handle and on a handle that is not a directory. -/
def OSFile.Readdir (f : OSFile) (n : Int) : (List FileInfo × Option Err) × OSFile :=
  if f.closed then (([], some errClosed), f)
  else if f.info.IsDir = false then (([], some errNotDir), f)
  else
    let remaining := f.entries.drop f.dirOff
    if n > 0 then
      if remaining = [] then (([], some EOF), f)
      else
        let got := remaining.take n.toNat
        ((got, none), { f with dirOff := f.dirOff + got.length })
    else ((remaining, none), { f with dirOff := f.entries.length })

/-- `Close` of a delegate handle; a second `Close` fails. -/
def OSFile.Close (f : OSFile) : Option Err × OSFile :=
  if f.closed then (some errClosed, f)
  else (f.closeErr, { f with closed := true })

/-! ## External collaborators and program state -/

/-- The body of an HTTP response: its bytes, and the error reading it ends
with, if any. -/
structure Body where
  data : Bytes
  err : Option Err
  deriving DecidableEq, Repr

/-- An `*http.Response`. -/
structure Response where
  StatusCode : Nat
  Body : Body
  deriving DecidableEq, Repr

/-- The libraries and the surroundings the program calls into. -/
structure Env where
  /-- The function `github_flavored_markdown.Markdown`. -/
  Markdown : Bytes → Bytes
  /-- The generated `AssetNames()`. -/
  AssetNames : List Bytes
  /-- The generated `Asset(name)`. -/
  Asset : Bytes → Bytes × Option Err
  /-- The result of `os.Getwd()`. -/
  Getwd : Bytes × Option Err
  /-- The error, if any, with which `ioutil.WriteFile` to a path fails. -/
  writeErr : Bytes → Option Err
  /-- The answer of `http.Post` to the rendering endpoint, given the bodies
  posted before and the body posted now. -/
  Post : List Bytes → Bytes → Response × Option Err
  /-- The delegate `fs.Dir.Open`. -/
  DirOpen : Bytes → Option OSFile × Option Err

/-- The package-level variables that configure a run. -/
structure Config where
  dirFlag : Bytes
  offlineFlag : Bool
  localCss : List Bytes
  remoteCss : List Bytes

/-- The closure `WriteGitHubFlavoredMarkdownViaLocal` returns; it captures the
slice `paths`. -/
structure Cleanup where
  paths : List Bytes
  deriving DecidableEq, Repr

/-- The regular files on disk: path and content. -/
abbrev Disk := List (Bytes × Bytes)

/-- The state the program mutates. -/
structure World where
  disk : Disk
  /-- The package variable `cleanupFuncs`. -/
  cleanupFuncs : List Cleanup
  /-- The bodies posted to the remote endpoint so far. -/
  posts : List Bytes
  deriving DecidableEq, Repr

/-- Whether a regular file exists at the path. -/
def Disk.has (d : Disk) (p : Bytes) : Bool := d.any (fun e => decide (e.1 = p))

/-- The content of the file at the path. -/
def Disk.get (d : Disk) (p : Bytes) : Option Bytes :=
  (d.find? (fun e => decide (e.1 = p))).map (fun e => e.2)

/-- `ioutil.WriteFile(path, data, 0700)`: creates the file or replaces its
content. -/
def WriteFile (env : Env) (w : World) (path data : Bytes) : Option Err × World :=
  match env.writeErr path with
  | some err => (some err, w)
  | none =>
    (none, { w with disk := (path, data) :: w.disk.filter (fun e => decide (e.1 ≠ path)) })

/-- `os.Remove(path)`: removes the file, and fails when there is none. -/
def Remove (w : World) (path : Bytes) : Option Err × World :=
  if w.disk.has path then
    (none, { w with disk := w.disk.filter (fun e => decide (e.1 ≠ path)) })
  else (some ⟨"remove: no such file or directory"⟩, w)

/-- Go's `filepath.Abs` on Unix: an absolute path is cleaned, a relative one is
joined to the working directory. -/
def Abs (env : Env) (path : Bytes) : Bytes × Option Err :=
  if path.head? = some slash then (Clean path, none)
  else
    match env.Getwd with
    | (_, some err) => ([], some err)
    | (wd, none) => (Join wd path, none)

/-! ## markdown.go -/

/-- The initial value of the package variable `remoteCss`. -/
def remoteCss : List Bytes :=
  [str "https://dl.dropboxusercontent.com/u/8554242/temp/github-flavored-markdown.css",
   str "//cdnjs.cloudflare.com/ajax/libs/octicons/2.1.2/octicons.css"]

/-- The initial value of the package variable `localCss`. -/
def localCss : List Bytes :=
  [str "github-flavored-markdown.css", str "octicons.css"]

/-- The constant `styleLinkTemplate`. -/
def styleLinkTemplate : Bytes :=
  str "<link href=\"%s\" media=\"all\" rel=\"stylesheet\" type=\"text/css\" />"

/-- The function `styleLink`. -/
def styleLink (url : Bytes) : Bytes := Sprintf styleLinkTemplate [url]

/-- `io.WriteString(w, s)` and `w.Write(b)` on the `bytes.Buffer` the caller
passes: the bytes are appended. -/
def WriteString (w : Bytes) (s : Bytes) : Bytes := w ++ s

/-- `io.Copy(w, resp.Body)`: the body is appended to the buffer; the error is
the one reading the body ends with. -/
def Copy (w : Bytes) (body : Body) : Bytes × Option Err := (w ++ body.data, body.err)

/-- The loop of `createAssets` over the asset names still to be written, with
the paths collected so far. -/
def createAssetsLoop (env : Env) (root : Bytes) :
    List Bytes → List Bytes → World → Outcome (List Bytes) × World
  | [], paths, w => (.returned paths, w)
  | a :: rest, paths, w =>
    let path := Join root a
    match env.Asset a with
    | (_, some err) => (.panicked (.err err), w)
    | (data, none) =>
      match WriteFile env w path data with
      | (some err, w1) => (.panicked (.err err), w1)
      | (none, w1) => createAssetsLoop env root rest (paths ++ [path]) w1

/-- The function `createAssets`. -/
def createAssets (env : Env) (root : Bytes) (w : World) : Outcome (List Bytes) × World :=
  createAssetsLoop env root env.AssetNames [] w

/-- One iteration of the loop of the cleanup closure: `os.Remove(link)`, the
error collected in `errors`. -/
def cleanupStep (acc : List Err × World) (link : Bytes) : List Err × World :=
  match Remove acc.2 link with
  | (some err, w1) => (acc.1 ++ [err], w1)
  | (none, w1) => (acc.1, w1)

/-- A call of the closure returned by `WriteGitHubFlavoredMarkdownViaLocal`. -/
def Cleanup.run (c : Cleanup) (w : World) : Outcome Unit × World :=
  let r := c.paths.foldl cleanupStep ([], w)
  if r.1.length ≠ 0 then (.panicked (.errs r.1), r.2) else (.returned (), r.2)

/-- The function `WriteGitHubFlavoredMarkdownViaLocal`, writing to the buffer
`buf`: the cleanup closure and the buffer afterwards. -/
def WriteGitHubFlavoredMarkdownViaLocal (env : Env) (cfg : Config) (buf : Bytes)
    (markdown : Bytes) (root : Bytes) (w : World) : Outcome (Cleanup × Bytes) × World :=
  match Abs env root with
  | (_, some err) => (.panicked (.err err), w)
  | (absRoot, none) =>
    match createAssets env absRoot w with
    | (.panicked p, w1) => (.panicked p, w1)
    | (.returned paths, w1) =>
      let b1 := WriteString buf (str "<html><head><meta charset=\"utf-8\">")
      let b2 := cfg.localCss.foldl
        (fun b link => WriteString b (styleLink (Clean (str "/" ++ link)))) b1
      let b3 := WriteString b2
        (str "</head><body><article class=\"markdown-body entry-content\" style=\"padding: 30px;\">")
      let b4 := WriteString b3 (env.Markdown markdown)
      let b5 := WriteString b4 (str "</article></body></html>")
      (.returned (⟨paths⟩, b5), w1)

/-- The function `WriteGitHubFlavoredMarkdownViaGitHub`, writing to the buffer
`buf`. -/
def WriteGitHubFlavoredMarkdownViaGitHub (env : Env) (cfg : Config) (buf : Bytes)
    (markdown : Bytes) (w : World) : Outcome Bytes × World :=
  let b1 := WriteString buf (str "<html><head><meta charset=\"utf-8\">")
  let b2 := cfg.remoteCss.foldl (fun b link => WriteString b (styleLink link)) b1
  let b3 := WriteString b2
    (str "</head><body><article class=\"markdown-body entry-content\" style=\"padding: 30px;\">")
  let w1 := { w with posts := w.posts ++ [markdown] }
  match env.Post w.posts markdown with
  | (_, some err) => (.panicked (.err err), w1)
  | (resp, none) =>
    match Copy b3 resp.Body with
    | (_, some err) => (.panicked (.err err), w1)
    | (b4, none) => (.returned (WriteString b4 (str "</article></body></html>")), w1)

/-! ## doc_server.go -/

/-- The struct `file`: the handle of the delegate, and the embedded
`*bytes.Reader`. -/
structure file where
  underlyingFile : OSFile
  Reader : Reader
  deriving DecidableEq, Repr

/-- The struct `fileInfo`: the embedded `os.FileInfo` (`none` when nil) and
the reader of the `file` it was made from. In Go the field is a pointer shared
with the file; a value of this structure holds the reader as it is at one
moment, and `fileInfo.seenAfter` moves it to a later moment. -/
structure fileInfo where
  FileInfo : Option FileInfo
  reader : Reader
  deriving DecidableEq, Repr

/-- What `fileSystem.Open` returns as `http.File`: the handle of the delegate
itself, or a `*file`. -/
inductive HttpFile
  | osFile (f : OSFile)
  | htmlFile (f : file)
  deriving DecidableEq, Repr

/-- The method `(*file).Readdir`. -/
def file.Readdir (f : file) (n : Int) : (List FileInfo × Option Err) × file :=
  let r := f.underlyingFile.Readdir n
  (r.1, { f with underlyingFile := r.2 })

/-- The method `(*file).Stat`. -/
def file.Stat (f : file) : Option fileInfo × Option Err :=
  match f.underlyingFile.Stat with
  | (_, some err) => (none, some err)
  | (fileStat, none) => (some { FileInfo := fileStat, reader := f.Reader }, none)

/-- The method `(*fileInfo).Size`. -/
def fileInfo.Size (fi : fileInfo) : Int := fi.reader.Len

/-- A `fileInfo` as it is once the file it was made from has become `f`: the
field `reader` is a pointer to the reader of the file, so it shows the reader
as reads and seeks have left it. -/
def fileInfo.seenAfter (fi : fileInfo) (f : file) : fileInfo := { fi with reader := f.Reader }

/-- The method `(*file).Close`. -/
def file.Close (f : file) : Option Err × file :=
  let r := f.underlyingFile.Close
  (r.1, { f with underlyingFile := r.2 })

/-- The promoted method `(*file).Read` of the embedded reader. -/
def file.Read (f : file) (n : Nat) : (Bytes × Option Err) × file :=
  let r := f.Reader.Read n
  (r.1, { f with Reader := r.2 })

/-- The promoted method `(*file).Seek` of the embedded reader. -/
def file.Seek (f : file) (offset whence : Int) : (Int × Option Err) × file :=
  let r := f.Reader.Seek offset whence
  (r.1, { f with Reader := r.2 })

/-- The call `Readdir(n)` on an `http.File` returned by `fileSystem.Open`,
dispatched on the dynamic type; the entries and the error it returns. -/
def HttpFile.Readdir (h : HttpFile) (n : Int) : List FileInfo × Option Err :=
  match h with
  | .osFile f => (f.Readdir n).1
  | .htmlFile f => (f.Readdir n).1

/-- The function `githubFlavouredMarkdown`. -/
def githubFlavouredMarkdown (env : Env) (cfg : Config) (input : Bytes) (w : World) :
    Outcome Bytes × World :=
  let buf : Bytes := []
  if cfg.offlineFlag then
    match WriteGitHubFlavoredMarkdownViaLocal env cfg buf input cfg.dirFlag w with
    | (.panicked p, w1) => (.panicked p, w1)
    | (.returned (fn, buf1), w1) =>
      (.returned buf1, { w1 with cleanupFuncs := w1.cleanupFuncs ++ [fn] })
  else
    WriteGitHubFlavoredMarkdownViaGitHub env cfg buf input w

/-- The function `newFile`. -/
def newFile (env : Env) (cfg : Config) (f : OSFile) (fBytes : Bytes) (w : World) :
    Outcome file × World :=
  match githubFlavouredMarkdown env cfg fBytes w with
  | (.panicked p, w1) => (.panicked p, w1)
  | (.returned mdBytes, w1) =>
    (.returned { underlyingFile := f, Reader := NewReader mdBytes }, w1)

/-- The method `(*fileSystem).Open`: the pair `(http.File, error)` it returns,
unless it panics. -/
def Open (env : Env) (cfg : Config) (name : Bytes) (w : World) :
    Outcome (Option HttpFile × Option Err) × World :=
  match env.DirOpen name with
  | (_, some err) => (.returned (none, some err), w)
  | (none, none) => (.panicked .nilDeref, w)
  | (some f, none) =>
    match f.Stat with
    | (_, some err) => (.returned (none, some err), w)
    | (none, none) => (.panicked .nilDeref, w)
    | (some fi, none) =>
      if fi.IsDir then (.returned (some (.osFile f), none), w)
      else
        match ReadAll f with
        | ((_, some err), _) => (.returned (none, some err), w)
        | ((fileBytes, none), f1) =>
          match newFile env cfg f1 fileBytes w with
          | (.panicked p, w1) => (.panicked p, w1)
          | (.returned hf, w1) => (.returned (some (.htmlFile hf), none), w1)

/-- The deferred loop of `main`: the functions of `cleanupFuncs` are called in
order; a panic ends the loop. -/
def runCleanups : List Cleanup → World → Outcome Unit × World
  | [], w => (.returned (), w)
  | fn :: rest, w =>
    match fn.run w with
    | (.panicked p, w1) => (.panicked p, w1)
    | (.returned _, w1) => runCleanups rest w1

/-- A Go `map[string][]string` that is not nil: its entries, one per key. -/
abbrev GoMap := List (Bytes × List Bytes)

/-- The value `m[k]` with the flag `ok`. -/
def GoMap.get (m : GoMap) (k : Bytes) : Option (List Bytes) :=
  (m.find? (fun e => decide (e.1 = k))).map (fun e => e.2)

/-- The assignment `m[k] = v`. -/
def GoMap.set (m : GoMap) (k : Bytes) (v : List Bytes) : GoMap :=
  if m.any (fun e => decide (e.1 = k)) then
    m.map (fun e => if e.1 = k then (k, v) else e)
  else m ++ [(k, v)]

/-- The struct `indexWalker`; `none` is the nil map. -/
structure indexWalker where
  dirToFiles : Option GoMap
  deriving DecidableEq, Repr

/-- The method `(*indexWalker).walk`; `info` is `none` for a nil
`os.FileInfo`. The argument `err` is not used by the method. -/
def indexWalker.walk (i : indexWalker) (path : Bytes) (info : Option FileInfo) :
    Outcome (Option Err) × indexWalker :=
  let m0 : GoMap := match i.dirToFiles with
    | none => []
    | some m => m
  match info with
  | none => (.panicked .nilDeref, { dirToFiles := some m0 })
  | some info =>
    let m1 : GoMap :=
      if info.IsDir then
        match m0.get path with
        | none => m0.set path []
        | some _ => m0
      else m0
    let m2 : GoMap :=
      if ¬ info.IsDir then
        m1.set (Dir path) ((m1.get (Dir path)).getD [] ++ [info.Name])
      else m1
    (.returned none, { dirToFiles := some m2 })

/-! ## Go standard library: `filepath.Walk` over a directory tree -/

/-- A node of a directory tree: a file, or a directory with its entries in
the order `filepath.Walk` reads them. -/
inductive Node
  | file (name : Bytes)
  | dir (name : Bytes) (children : List Node)

/-- The name of a node. -/
def Node.name : Node → Bytes
  | .file name => name
  | .dir name _ => name

/-- Whether a node is a directory. -/
def Node.isDir : Node → Bool
  | .file _ => false
  | .dir _ _ => true

/-- The `os.FileInfo` that `os.Lstat` gives for a node. -/
def Node.info (n : Node) : FileInfo :=
  { Name := n.name, Size := 0, Mode := 0, ModTime := 0, IsDir := n.isDir }

mutual
/-- The function `walk` of `path/filepath` with `(*indexWalker).walk` as the
`WalkFunc`: the node at `path` is visited, then the entries of a directory,
each at `Join(path, name)`. An error of the `WalkFunc` ends the walk. -/
def walkNode (path : Bytes) : Node → indexWalker → Outcome (Option Err) × indexWalker
  | .file name, i => i.walk path (some (Node.file name).info)
  | .dir name cs, i =>
    match i.walk path (some (Node.dir name cs).info) with
    | (.returned none, i1) => walkChildren path cs i1
    | r => r
/-- The loop of `walk` over the entries of the directory at `path`. -/
def walkChildren (path : Bytes) : List Node → indexWalker → Outcome (Option Err) × indexWalker
  | [], i => (.returned none, i)
  | c :: cs, i =>
    match walkNode (Join path c.name) c i with
    | (.returned none, i1) => walkChildren path cs i1
    | r => r
end

/-- The call `filepath.Walk(root, walker.walk)` on the tree `t` found at
`root`. -/
def Walk (root : Bytes) (t : Node) (i : indexWalker) : Outcome (Option Err) × indexWalker :=
  walkNode root t i

/-! ## The directory index a walk is expected to build -/

/-- The names of the entries of a directory that are not directories, in
order. -/
def fileNames : List Node → List Bytes
  | [] => []
  | .file name :: cs => name :: fileNames cs
  | .dir _ _ :: cs => fileNames cs

mutual
/-- The index the claim describes for the tree found at `path`: one entry per
directory of the tree, in pre-order, keyed by the path of the directory and
holding the names of its immediate non-directory entries in order. -/
def expectedIndex (path : Bytes) : Node → GoMap
  | .file _ => []
  | .dir _ cs => (path, fileNames cs) :: expectedIndexChildren path cs
/-- The entries of `expectedIndex` for the directories below the entries of
the directory at `path`. -/
def expectedIndexChildren (path : Bytes) : List Node → GoMap
  | [] => []
  | c :: cs => expectedIndex (Join path c.name) c ++ expectedIndexChildren path cs
end

mutual
/-- The number of directories of a tree. -/
def countDirs : Node → Nat
  | .file _ => 0
  | .dir _ cs => 1 + countDirsList cs
/-- The number of directories in a list of trees. -/
def countDirsList : List Node → Nat
  | [] => 0
  | c :: cs => countDirs c + countDirsList cs
end

/-- A name a directory entry can have: not empty, without `/`, and neither
`.` nor `..`. -/
def validName (n : Bytes) : Prop := n ≠ [] ∧ slash ∉ n ∧ n ≠ [dot] ∧ n ≠ [dot, dot]

instance (n : Bytes) : Decidable (validName n) := by
  unfold validName
  infer_instance

mutual
/-- A well-formed tree: the entries of every directory have valid, pairwise
distinct names. -/
def wellFormed : Node → Bool
  | .file _ => true
  | .dir _ cs =>
    decide ((cs.map Node.name).Nodup) && cs.all (fun c => decide (validName c.name))
      && wellFormedList cs
/-- Every tree of the list is well-formed. -/
def wellFormedList : List Node → Bool
  | [] => true
  | c :: cs => wellFormed c && wellFormedList cs
end

/-- The state `(out, dotdot)` of the loop of `Clean` when it has consumed all
of a non-empty path. -/
def cleanState (P : Bytes) : Bytes × Nat :=
  match P with
  | [] => ([], 0)
  | c :: t =>
    if c = slash then cleanLoop true t.length t [slash] 1
    else cleanLoop false (c :: t).length (c :: t) [] 0

/-- Whether a path starts with `/`. -/
def isRooted (P : Bytes) : Bool := decide (P.head? = some slash)

/-- What `filepath.Join` puts before the name of an entry of the directory at
a path in `Clean` form: nothing for `.`, `/` for `/`, and the path with a `/`
otherwise. -/
def childBase (P : Bytes) : Bytes :=
  if P = [slash] then [slash] else if P = [dot] then [] else P ++ [slash]

/-- The keys of a map, in the order of its entries. -/
def GoMap.keys (m : GoMap) : List Bytes := m.map Prod.fst

mutual
/-- In the tree found at `path`, the parent directory that `filepath.Dir`
computes from the path of every non-directory entry is the path its directory
was visited with. -/
def dirOfJoinOk (path : Bytes) : Node → Prop
  | .file _ => True
  | .dir _ cs => dirOfJoinOkList path cs
/-- The property `dirOfJoinOk` for the entries of the directory at `path`. -/
def dirOfJoinOkList (path : Bytes) : List Node → Prop
  | [] => True
  | c :: cs =>
    (c.isDir = false → Dir (Join path c.name) = path)
      ∧ dirOfJoinOk (Join path c.name) c ∧ dirOfJoinOkList path cs
end

/-! ## Concrete inputs used by the closed theorems -/

/-- The package variables as the program initialises them (`-dir` as given,
`-offline` as given). -/
def configOf (dir : Bytes) (offline : Bool) : Config :=
  { dirFlag := dir, offlineFlag := offline, localCss := localCss, remoteCss := remoteCss }

/-- A world with nothing on disk, no cleanup registered, nothing posted. -/
def emptyWorld : World := { disk := [], cleanupFuncs := [], posts := [] }

/-- Four bytes of a PNG file. -/
def pngBytes : Bytes := [0x89, 0x50, 0x4E, 0x47]

/-- An open handle on a regular file `image.png` holding `pngBytes`. -/
def pngHandle : OSFile :=
  { fd := 3,
    info := { Name := str "image.png", Size := 4, Mode := 420, ModTime := 0, IsDir := false },
    statErr := none, data := pngBytes, off := 0, readErr := none,
    entries := [], dirOff := 0, closed := false, closeErr := none }

/-- An open handle on a directory `docs` with the entry `image.png`. -/
def dirHandle : OSFile :=
  { fd := 4,
    info := { Name := str "docs", Size := 4096, Mode := 493, ModTime := 0, IsDir := true },
    statErr := none, data := [], off := 0, readErr := none,
    entries := [pngHandle.info], dirOff := 0, closed := false, closeErr := none }

/-- A sample environment: a served root `/srv` holding `image.png` and the
directory `docs`, two embedded stylesheets, a stand-in renderer that wraps its
input in `<p>`, and a remote endpoint that answers every request with status
403 and an error document. -/
def sampleEnv : Env :=
  { Markdown := fun b => str "<p>" ++ b ++ str "</p>",
    AssetNames := [str "github-flavored-markdown.css", str "octicons.css"],
    Asset := fun _ => (str "body\x7b\x7d", none),
    Getwd := (str "/home", none),
    writeErr := fun _ => none,
    Post := fun _ _ => ({ StatusCode := 403, Body := { data := str "rate limit exceeded", err := none } }, none),
    DirOpen := fun name =>
      if name = str "/image.png" then (some pngHandle, none)
      else if name = str "/docs" then (some dirHandle, none)
      else (none, some ⟨"open: no such file or directory"⟩) }

/-- The sample environment with a served root into which no file can be
written. -/
def unwritableEnv : Env :=
  { sampleEnv with writeErr := fun _ => some ⟨"permission denied"⟩ }

/-- The page the local strategy assembles around a fragment with the
stylesheet list the program ships, spelled out. -/
def localPageOf (frag : Bytes) : Bytes :=
  str "<html><head><meta charset=\"utf-8\">"
    ++ str "<link href=\"/github-flavored-markdown.css\" media=\"all\" rel=\"stylesheet\" type=\"text/css\" />"
    ++ str "<link href=\"/octicons.css\" media=\"all\" rel=\"stylesheet\" type=\"text/css\" />"
    ++ str "</head><body><article class=\"markdown-body entry-content\" style=\"padding: 30px;\">"
    ++ frag
    ++ str "</article></body></html>"

/-- The paths of the two stylesheets written below `/srv`. -/
def samplePaths : List Bytes :=
  [str "/srv/github-flavored-markdown.css", str "/srv/octicons.css"]

/-- The disk after one local render into `/srv` in the sample environment. -/
def sampleDisk : Disk :=
  [(str "/srv/octicons.css", str "body\x7b\x7d"),
   (str "/srv/github-flavored-markdown.css", str "body\x7b\x7d")]

/-- A directory with two files and a nested directory holding one file. -/
def sampleTree : Node :=
  .dir (str "doc-server")
    [.file (str "test_0.md"), .dir (str "nested") [.file (str "test_0.md")],
     .file (str "test_1.md")]

/-- The world after one local render into `/srv` from the empty world. -/
def worldAfterOne : World :=
  { disk := sampleDisk, cleanupFuncs := [⟨samplePaths⟩], posts := [] }

/-- The world after two local renders into `/srv` from the empty world. -/
def worldAfterTwo : World :=
  { disk := sampleDisk, cleanupFuncs := [⟨samplePaths⟩, ⟨samplePaths⟩], posts := [] }

/-- The virtual file `fileSystem.Open` builds for `image.png` in the sample
environment with the local strategy. -/
def pngVirtualFile : file :=
  { underlyingFile := { pngHandle with off := 4 },
    Reader := { s := localPageOf (str "<p>" ++ pngBytes ++ str "</p>"), i := 0, prevRune := -1 } }

end MdServer

/-! # Theorems -/

namespace MdServer


/-! ## Page assembly -/

/-- The function `styleLink` puts the URL, unchanged, into the `href` of the
link element. -/
theorem styleLink_eq (url : Bytes) :
    styleLink url =
      str "<link href=\"" ++ url ++ str "\" media=\"all\" rel=\"stylesheet\" type=\"text/css\" />" :=
  rfl

/-- The loop that writes one element per list entry appends the elements in
list order. -/
theorem foldl_WriteString (f : Bytes → Bytes) (l : List Bytes) (b : Bytes) :
    l.foldl (fun b link => b ++ f link) b = b ++ (l.map f).flatten := by
  induction l generalizing b with
  | nil => simp
  | cons x xs ih => simp [List.foldl_cons, ih, List.append_assoc]

/-- What the local strategy writes when the root resolves and the assets are
written. -/
theorem local_page (env : Env) (cfg : Config) (buf markdown root : Bytes) (w w1 : World)
    (absRoot : Bytes) (paths : List Bytes)
    (hAbs : Abs env root = (absRoot, none))
    (hAssets : createAssets env absRoot w = (.returned paths, w1)) :
    WriteGitHubFlavoredMarkdownViaLocal env cfg buf markdown root w =
      (.returned (⟨paths⟩,
        buf ++ str "<html><head><meta charset=\"utf-8\">"
          ++ (cfg.localCss.map (fun link => styleLink (Clean (str "/" ++ link)))).flatten
          ++ str "</head><body><article class=\"markdown-body entry-content\" style=\"padding: 30px;\">"
          ++ env.Markdown markdown
          ++ str "</article></body></html>"), w1) := by
  simp only [WriteGitHubFlavoredMarkdownViaLocal, hAbs, hAssets, WriteString, foldl_WriteString]

/-- What the remote strategy writes when the request is answered and the body
is read to its end. -/
theorem remote_page (env : Env) (cfg : Config) (buf markdown : Bytes) (w : World)
    (resp : Response)
    (hPost : env.Post w.posts markdown = (resp, none))
    (hBody : resp.Body.err = none) :
    WriteGitHubFlavoredMarkdownViaGitHub env cfg buf markdown w =
      (.returned
        (buf ++ str "<html><head><meta charset=\"utf-8\">"
          ++ (cfg.remoteCss.map styleLink).flatten
          ++ str "</head><body><article class=\"markdown-body entry-content\" style=\"padding: 30px;\">"
          ++ resp.Body.data
          ++ str "</article></body></html>"),
        { w with posts := w.posts ++ [markdown] }) := by
  simp only [WriteGitHubFlavoredMarkdownViaGitHub, hPost, Copy, hBody, WriteString,
    foldl_WriteString]

/-- C7. The page either strategy writes is the fixed preamble, one link
element per stylesheet URL in list order (nothing is deduplicated), the
opening of the article container, the fragment unchanged, and the closing
tags. The fragment is the renderer's output for the local strategy and the
response body for the remote one. With the lists the program ships, the local
URLs are `/github-flavored-markdown.css` and `/octicons.css`, and the remote
URLs are the two entries of `remoteCss` as they stand. -/
theorem page_is_shell_links_fragment (env : Env) (cfg : Config) (buf markdown root : Bytes)
    (w : World) :
    (∀ absRoot paths w1, Abs env root = (absRoot, none) →
      createAssets env absRoot w = (.returned paths, w1) →
      WriteGitHubFlavoredMarkdownViaLocal env cfg buf markdown root w =
        (.returned (⟨paths⟩,
          buf ++ str "<html><head><meta charset=\"utf-8\">"
            ++ (cfg.localCss.map (fun link =>
                  str "<link href=\"" ++ Clean (str "/" ++ link)
                    ++ str "\" media=\"all\" rel=\"stylesheet\" type=\"text/css\" />")).flatten
            ++ str "</head><body><article class=\"markdown-body entry-content\" style=\"padding: 30px;\">"
            ++ env.Markdown markdown
            ++ str "</article></body></html>"), w1))
    ∧ (∀ resp, env.Post w.posts markdown = (resp, none) → resp.Body.err = none →
      WriteGitHubFlavoredMarkdownViaGitHub env cfg buf markdown w =
        (.returned
          (buf ++ str "<html><head><meta charset=\"utf-8\">"
            ++ (cfg.remoteCss.map (fun url =>
                  str "<link href=\"" ++ url
                    ++ str "\" media=\"all\" rel=\"stylesheet\" type=\"text/css\" />")).flatten
            ++ str "</head><body><article class=\"markdown-body entry-content\" style=\"padding: 30px;\">"
            ++ resp.Body.data
            ++ str "</article></body></html>"),
          { w with posts := w.posts ++ [markdown] }))
    ∧ localCss.map (fun link => Clean (str "/" ++ link))
        = [str "/github-flavored-markdown.css", str "/octicons.css"]
    ∧ remoteCss
        = [str "https://dl.dropboxusercontent.com/u/8554242/temp/github-flavored-markdown.css",
           str "//cdnjs.cloudflare.com/ajax/libs/octicons/2.1.2/octicons.css"] := by
  refine ⟨?_, ?_, by decide, rfl⟩
  · intro absRoot paths w1 hAbs hAssets
    exact local_page env cfg buf markdown root w w1 absRoot paths hAbs hAssets
  · intro resp hPost hBody
    exact remote_page env cfg buf markdown w resp hPost hBody

set_option maxRecDepth 20000 in
/-- C7, at a concrete input: the local strategy on `# Header` in the sample
environment writes the two stylesheets and the page around the fragment; the
remote strategy writes the page around the response body. -/
theorem page_is_shell_links_fragment_witness :
    WriteGitHubFlavoredMarkdownViaLocal sampleEnv (configOf (str "/srv") true) []
        (str "# Header") (str "/srv") emptyWorld
      = (.returned (⟨[str "/srv/github-flavored-markdown.css", str "/srv/octicons.css"]⟩,
          str ("<html><head><meta charset=\"utf-8\">"
            ++ "<link href=\"/github-flavored-markdown.css\" media=\"all\" rel=\"stylesheet\" type=\"text/css\" />"
            ++ "<link href=\"/octicons.css\" media=\"all\" rel=\"stylesheet\" type=\"text/css\" />"
            ++ "</head><body><article class=\"markdown-body entry-content\" style=\"padding: 30px;\">"
            ++ "<p># Header</p>"
            ++ "</article></body></html>")),
          { disk := [(str "/srv/octicons.css", str "body\x7b\x7d"),
                     (str "/srv/github-flavored-markdown.css", str "body\x7b\x7d")],
            cleanupFuncs := [], posts := [] })
    ∧ WriteGitHubFlavoredMarkdownViaGitHub sampleEnv (configOf (str "/srv") false) []
        (str "# Header") emptyWorld
      = (.returned
          (str ("<html><head><meta charset=\"utf-8\">"
            ++ "<link href=\"https://dl.dropboxusercontent.com/u/8554242/temp/github-flavored-markdown.css\" media=\"all\" rel=\"stylesheet\" type=\"text/css\" />"
            ++ "<link href=\"//cdnjs.cloudflare.com/ajax/libs/octicons/2.1.2/octicons.css\" media=\"all\" rel=\"stylesheet\" type=\"text/css\" />"
            ++ "</head><body><article class=\"markdown-body entry-content\" style=\"padding: 30px;\">"
            ++ "rate limit exceeded"
            ++ "</article></body></html>")),
          { disk := [], cleanupFuncs := [], posts := [str "# Header"] }) :=
  ⟨((page_is_shell_links_fragment sampleEnv (configOf (str "/srv") true) [] (str "# Header")
        (str "/srv") emptyWorld).1 (str "/srv")
        [str "/srv/github-flavored-markdown.css", str "/srv/octicons.css"]
        { disk := [(str "/srv/octicons.css", str "body\x7b\x7d"),
                   (str "/srv/github-flavored-markdown.css", str "body\x7b\x7d")],
          cleanupFuncs := [], posts := [] } (by decide) (by decide)).trans rfl,
   ((page_is_shell_links_fragment sampleEnv (configOf (str "/srv") false) [] (str "# Header")
        (str "/srv") emptyWorld).2.1
        { StatusCode := 403, Body := { data := str "rate limit exceeded", err := none } }
        (by decide) (by decide)).trans rfl⟩

/-! ## `fileSystem.Open` -/

/-- A page returned by `githubFlavouredMarkdown` is the preamble, some link
elements, the opening of the container, a fragment and the closing tags. -/
theorem githubFlavouredMarkdown_shape (env : Env) (cfg : Config) (input page : Bytes)
    (w w1 : World) (h : githubFlavouredMarkdown env cfg input w = (.returned page, w1)) :
    ∃ links frag : Bytes,
      page = str "<html><head><meta charset=\"utf-8\">" ++ (links
        ++ (str "</head><body><article class=\"markdown-body entry-content\" style=\"padding: 30px;\">"
        ++ (frag ++ str "</article></body></html>"))) := by
  unfold githubFlavouredMarkdown at h
  rcases hoff : cfg.offlineFlag with _ | _
  · simp only [hoff, Bool.false_eq_true, if_false] at h
    unfold WriteGitHubFlavoredMarkdownViaGitHub at h
    rcases hPost : env.Post w.posts input with ⟨resp, _ | err⟩
    · rcases hB : resp.Body.err with _ | err
      · simp only [hPost, Copy, hB, WriteString, foldl_WriteString, List.nil_append,
          Prod.mk.injEq, Outcome.returned.injEq] at h
        refine ⟨(cfg.remoteCss.map styleLink).flatten, resp.Body.data, ?_⟩
        rw [← h.1]; simp only [List.append_assoc]
      · simp [hPost, Copy, hB] at h
    · simp [hPost] at h
  · simp only [hoff, if_true] at h
    unfold WriteGitHubFlavoredMarkdownViaLocal at h
    rcases hAbs : Abs env cfg.dirFlag with ⟨absRoot, _ | err⟩
    · rcases hAs : createAssets env absRoot w with ⟨_ | p, w2⟩
      · simp only [hAbs, hAs, WriteString, foldl_WriteString, List.nil_append, Prod.mk.injEq,
          Outcome.returned.injEq] at h
        refine ⟨(cfg.localCss.map (fun link => styleLink (Clean (str "/" ++ link)))).flatten,
          env.Markdown input, ?_⟩
        rw [← h.1]; simp only [List.append_assoc]
      · simp [hAbs, hAs] at h
    · simp [hAbs] at h

/-- A handle whose `Stat` succeeds is not closed. -/
theorem Stat_ok_not_closed (f : OSFile) (fi : FileInfo) (h : f.Stat = (some fi, none)) :
    f.closed = false := by
  unfold OSFile.Stat at h
  rcases hc : f.closed with _ | _
  · rfl
  · simp [hc] at h

/-- A full read that returns no error found the handle open and hit no read
error. -/
theorem ReadAll_ok (f : OSFile) (h : (ReadAll f).1.2 = none) :
    f.closed = false ∧ f.readErr = none := by
  unfold ReadAll at h
  rcases hc : f.closed with _ | _
  · rcases hr : f.readErr with _ | e
    · exact ⟨rfl, rfl⟩
    · simp [hc, hr] at h
  · simp [hc] at h

/-- A page the local strategy returns is the preamble, the link elements of
`localCss`, the opening of the container, the renderer's output for the whole
input and the closing tags. -/
theorem githubFlavouredMarkdown_local_page (env : Env) (cfg : Config) (input page : Bytes)
    (w w1 : World) (hOff : cfg.offlineFlag = true)
    (h : githubFlavouredMarkdown env cfg input w = (.returned page, w1)) :
    page = str "<html><head><meta charset=\"utf-8\">"
      ++ (cfg.localCss.map (fun link => styleLink (Clean (str "/" ++ link)))).flatten
      ++ str "</head><body><article class=\"markdown-body entry-content\" style=\"padding: 30px;\">"
      ++ env.Markdown input
      ++ str "</article></body></html>" := by
  unfold githubFlavouredMarkdown at h
  simp only [hOff, if_true] at h
  rcases hAbs : Abs env cfg.dirFlag with ⟨absRoot, _ | err⟩
  · rcases hAs : createAssets env absRoot w with ⟨paths | p, w2⟩
    · rw [local_page env cfg [] input cfg.dirFlag w w2 absRoot paths hAbs hAs] at h
      simp only [List.nil_append, Prod.mk.injEq, Outcome.returned.injEq] at h
      exact h.1.symm
    · simp [WriteGitHubFlavoredMarkdownViaLocal, hAbs, hAs] at h
  · simp [WriteGitHubFlavoredMarkdownViaLocal, hAbs] at h

/-- A page the remote strategy returns is the preamble, the link elements of
`remoteCss`, the opening of the container, the body of the response to the
request that carried the whole input, and the closing tags. -/
theorem githubFlavouredMarkdown_remote_page (env : Env) (cfg : Config) (input page : Bytes)
    (w w1 : World) (hOff : cfg.offlineFlag = false)
    (h : githubFlavouredMarkdown env cfg input w = (.returned page, w1)) :
    ∃ resp, env.Post w.posts input = (resp, none) ∧ resp.Body.err = none
      ∧ page = str "<html><head><meta charset=\"utf-8\">"
        ++ (cfg.remoteCss.map styleLink).flatten
        ++ str "</head><body><article class=\"markdown-body entry-content\" style=\"padding: 30px;\">"
        ++ resp.Body.data
        ++ str "</article></body></html>" := by
  unfold githubFlavouredMarkdown at h
  simp only [hOff, Bool.false_eq_true, if_false] at h
  rcases hPost : env.Post w.posts input with ⟨resp, _ | err⟩
  · rcases hB : resp.Body.err with _ | berr
    · rw [remote_page env cfg [] input w resp hPost hB] at h
      simp only [List.nil_append, Prod.mk.injEq, Outcome.returned.injEq] at h
      exact ⟨resp, rfl, hB, h.1.symm⟩
    · simp [WriteGitHubFlavoredMarkdownViaGitHub, hPost, Copy, hB] at h
  · simp [WriteGitHubFlavoredMarkdownViaGitHub, hPost] at h

/-- What `fileSystem.Open` does for a regular file whose open, stat and full
read succeed: it renders the bytes read and wraps the handle; a panic of the
renderer is a panic of `Open`. -/
theorem Open_regular (env : Env) (cfg : Config) (name : Bytes) (w : World)
    (f : OSFile) (fi : FileInfo)
    (hOpen : env.DirOpen name = (some f, none))
    (hStat : f.Stat = (some fi, none))
    (hDir : fi.IsDir = false)
    (hRead : f.readErr = none) :
    Open env cfg name w =
      match githubFlavouredMarkdown env cfg (f.data.drop f.off) w with
      | (.panicked p, w1) => (.panicked p, w1)
      | (.returned page, w1) =>
        (.returned (some (.htmlFile
          { underlyingFile := { f with off := f.data.length }, Reader := NewReader page }),
          none), w1) := by
  have hcl := Stat_ok_not_closed f fi hStat
  rcases hg : githubFlavouredMarkdown env cfg (f.data.drop f.off) w with ⟨page | p, w2⟩
  · simp [Open, hOpen, hStat, hDir, ReadAll, hcl, hRead, newFile, hg]
  · simp [Open, hOpen, hStat, hDir, ReadAll, hcl, hRead, newFile, hg]

/-- A read from offset 0 of a fresh reader returns the first bytes of its
content. -/
theorem Read_fresh (u : OSFile) (page : Bytes) (n : Nat) :
    (file.Read { underlyingFile := u, Reader := NewReader page } n).1.1 = page.take n := by
  simp only [file.Read, Reader.Read, NewReader]
  by_cases hp : (0 : Int) ≥ (page.length : Int)
  · have : page = [] := by
      have : page.length = 0 := by omega
      exact List.length_eq_zero.mp this
    simp [this]
  · simp [hp]

set_option maxRecDepth 20000 in
/-- C3, as stated, fails: in an environment where the asset files cannot be
written, the delegate opens `image.png`, the stat and the full read succeed,
and `fileSystem.Open` returns nothing: it panics with the write error of
`createAssets`. -/
theorem open_panics_when_asset_write_fails :
    (unwritableEnv.DirOpen (str "/image.png")) = (some pngHandle, none)
    ∧ pngHandle.Stat = (some pngHandle.info, none)
    ∧ pngHandle.info.IsDir = false
    ∧ (ReadAll pngHandle).1 = (pngBytes, none)
    ∧ Open unwritableEnv (configOf (str "/srv") true) (str "/image.png") emptyWorld
        = (.panicked (.err ⟨"permission denied"⟩), emptyWorld) := by
  decide

/-- C3, amended. For a regular file with bytes `b`, under any name, when the
delegate open, the stat and the full read succeed: if the configured renderer
returns a page for `b`, `fileSystem.Open` returns a virtual file whose
underlying handle is the handle the delegate opened (now read to its end) and
whose reader stands at offset 0 of exactly that page; if the renderer panics,
`fileSystem.Open` panics with the same value and returns nothing. -/
theorem open_regular_wraps_rendered_page (env : Env) (cfg : Config) (name : Bytes)
    (w : World) (f : OSFile) (fi : FileInfo) (b : Bytes)
    (hOpen : env.DirOpen name = (some f, none))
    (hStat : f.Stat = (some fi, none))
    (hDir : fi.IsDir = false)
    (hFresh : f.off = 0)
    (hData : f.data = b)
    (hRead : (ReadAll f).1.2 = none) :
    (∀ page w1, githubFlavouredMarkdown env cfg b w = (.returned page, w1) →
      ∃ hf : file,
        Open env cfg name w = (.returned (some (.htmlFile hf), none), w1)
        ∧ hf.underlyingFile = { f with off := f.data.length }
        ∧ hf.underlyingFile.fd = f.fd
        ∧ hf.Reader = { s := page, i := 0, prevRune := -1 }
        ∧ ∀ n, (hf.Read n).1.1 = page.take n)
    ∧ (∀ p w1, githubFlavouredMarkdown env cfg b w = (.panicked p, w1) →
        Open env cfg name w = (.panicked p, w1)) := by
  subst hData
  have hO := Open_regular env cfg name w f fi hOpen hStat hDir (ReadAll_ok f hRead).2
  rw [hFresh, List.drop_zero] at hO
  constructor
  · intro page w1 hRender
    rw [hRender] at hO
    exact ⟨_, hO, rfl, rfl, rfl, fun n => Read_fresh _ page n⟩
  · intro p w1 hRender
    rw [hRender] at hO
    exact hO

set_option maxRecDepth 20000 in
/-- C3 amended, at a concrete input: opening `image.png` of the sample
environment with the local strategy, where the renderer returns a page. -/
theorem open_regular_wraps_rendered_page_witness :
    ∃ hf : file,
      Open sampleEnv (configOf (str "/srv") true) (str "/image.png") emptyWorld
        = (.returned (some (.htmlFile hf), none), worldAfterOne)
      ∧ hf.underlyingFile = { pngHandle with off := pngHandle.data.length }
      ∧ hf.underlyingFile.fd = pngHandle.fd
      ∧ hf.Reader = { s := localPageOf (str "<p>" ++ pngBytes ++ str "</p>"), i := 0, prevRune := -1 }
      ∧ ∀ n, (hf.Read n).1.1 = (localPageOf (str "<p>" ++ pngBytes ++ str "</p>")).take n :=
  (open_regular_wraps_rendered_page sampleEnv (configOf (str "/srv") true) (str "/image.png")
    emptyWorld pngHandle pngHandle.info pngBytes
    (by decide) (by decide) (by decide) (by decide) (by decide) (by decide)).1
    (localPageOf (str "<p>" ++ pngBytes ++ str "</p>")) worldAfterOne (by decide)

set_option maxRecDepth 20000 in
/-- C1, as stated, fails: `image.png` holds four bytes that are not Markdown,
and the content of the handle `fileSystem.Open` returns for it is an HTML
page, not those four bytes. -/
theorem png_is_rendered_not_passed_through :
    (sampleEnv.DirOpen (str "/image.png")).1 = some pngHandle
    ∧ pngHandle.info.IsDir = false
    ∧ pngHandle.data = pngBytes
    ∧ Open sampleEnv (configOf (str "/srv") true) (str "/image.png") emptyWorld
        = (.returned (some (.htmlFile pngVirtualFile), none),
            { disk := sampleDisk, cleanupFuncs := [⟨samplePaths⟩], posts := [] })
    ∧ (pngVirtualFile.Read 4).1 = (str "<htm", none)
    ∧ pngVirtualFile.Reader.s ≠ pngBytes := by
  decide

/-- C1, amended. Whatever the name of a regular file with bytes `b` (Markdown
or not), when `fileSystem.Open` returns a handle for it, the handle is a
virtual file whose reader stands at offset 0 of the page the configured
renderer returned for the whole of `b`. With the local strategy that page is
the preamble, the link elements of `localCss`, the opening of the container,
the Markdown renderer's output for `b` and the closing tags; with the remote
strategy it is the same shell, with the link elements of `remoteCss`, around
the body of the response to the request that carried `b`. So the content
begins with the preamble and ends with the closing tags: the bytes of the
file are rendered, not passed through. -/
theorem open_regular_content_is_page (env : Env) (cfg : Config) (name : Bytes)
    (w w1 : World) (f : OSFile) (fi : FileInfo) (b : Bytes) (h : HttpFile)
    (hOpen : env.DirOpen name = (some f, none))
    (hStat : f.Stat = (some fi, none))
    (hDir : fi.IsDir = false)
    (hFresh : f.off = 0)
    (hData : f.data = b)
    (hRes : Open env cfg name w = (.returned (some h, none), w1)) :
    ∃ hf : file, h = .htmlFile hf
      ∧ hf.Reader.i = 0
      ∧ (∀ n, (hf.Read n).1.1 = hf.Reader.s.take n)
      ∧ githubFlavouredMarkdown env cfg b w = (.returned hf.Reader.s, w1)
      ∧ (cfg.offlineFlag = true →
          hf.Reader.s = str "<html><head><meta charset=\"utf-8\">"
            ++ (cfg.localCss.map (fun link =>
                  str "<link href=\"" ++ Clean (str "/" ++ link)
                    ++ str "\" media=\"all\" rel=\"stylesheet\" type=\"text/css\" />")).flatten
            ++ str "</head><body><article class=\"markdown-body entry-content\" style=\"padding: 30px;\">"
            ++ env.Markdown b
            ++ str "</article></body></html>")
      ∧ (cfg.offlineFlag = false →
          ∃ resp, env.Post w.posts b = (resp, none) ∧ resp.Body.err = none
            ∧ hf.Reader.s = str "<html><head><meta charset=\"utf-8\">"
              ++ (cfg.remoteCss.map (fun url =>
                    str "<link href=\"" ++ url
                      ++ str "\" media=\"all\" rel=\"stylesheet\" type=\"text/css\" />")).flatten
              ++ str "</head><body><article class=\"markdown-body entry-content\" style=\"padding: 30px;\">"
              ++ resp.Body.data
              ++ str "</article></body></html>")
      ∧ str "<html><head><meta charset=\"utf-8\">" <+: hf.Reader.s
      ∧ str "</article></body></html>" <:+ hf.Reader.s := by
  subst hData
  have hcl := Stat_ok_not_closed f fi hStat
  rcases hr : f.readErr with _ | e
  · have hO := Open_regular env cfg name w f fi hOpen hStat hDir hr
    rw [hFresh, List.drop_zero] at hO
    rw [hO] at hRes
    rcases hg : githubFlavouredMarkdown env cfg f.data w with ⟨page | p, w2⟩
    · rw [hg] at hRes
      simp only [Prod.mk.injEq, Outcome.returned.injEq, Option.some.injEq, and_true] at hRes
      obtain ⟨hh, hw⟩ := hRes
      subst hw
      obtain ⟨links, frag, hpage⟩ := githubFlavouredMarkdown_shape env cfg _ page w w2 hg
      have hpre : str "<html><head><meta charset=\"utf-8\">" <+: page := ⟨_, hpage.symm⟩
      have hpost : str "</article></body></html>" <:+ page :=
        ⟨str "<html><head><meta charset=\"utf-8\">" ++ (links
          ++ (str "</head><body><article class=\"markdown-body entry-content\" style=\"padding: 30px;\">"
          ++ frag)), by rw [hpage]; simp only [List.append_assoc]⟩
      refine ⟨_, hh.symm, rfl, fun n => Read_fresh _ page n, rfl, ?_, ?_, hpre, hpost⟩
      · intro hOff
        exact githubFlavouredMarkdown_local_page env cfg f.data page w w2 hOff hg
      · intro hOff
        exact githubFlavouredMarkdown_remote_page env cfg f.data page w w2 hOff hg
    · rw [hg] at hRes; simp at hRes
  · simp [Open, hOpen, hStat, hDir, ReadAll, hcl, hr] at hRes

set_option maxRecDepth 20000 in
/-- C1 amended, at a concrete input: `image.png` of the sample environment
with the local strategy. -/
theorem open_regular_content_is_page_witness :
    ∃ hf : file, HttpFile.htmlFile pngVirtualFile = .htmlFile hf
      ∧ hf.Reader.i = 0
      ∧ (∀ n, (hf.Read n).1.1 = hf.Reader.s.take n)
      ∧ githubFlavouredMarkdown sampleEnv (configOf (str "/srv") true) pngBytes emptyWorld
          = (.returned hf.Reader.s, worldAfterOne)
      ∧ hf.Reader.s = localPageOf (str "<p>" ++ pngBytes ++ str "</p>")
      ∧ str "<html><head><meta charset=\"utf-8\">" <+: hf.Reader.s
      ∧ str "</article></body></html>" <:+ hf.Reader.s := by
  obtain ⟨hf, h1, h2, h3, h4, h5, _, h7, h8⟩ :=
    open_regular_content_is_page sampleEnv (configOf (str "/srv") true) (str "/image.png")
      emptyWorld worldAfterOne pngHandle pngHandle.info pngBytes (.htmlFile pngVirtualFile)
      (by decide) (by decide) (by decide) (by decide) (by decide) (by decide)
  refine ⟨hf, h1, h2, h3, h4, ?_, h7, h8⟩
  rw [h5 rfl]
  decide

/-- C4. For a path that resolves to a directory, `fileSystem.Open` returns the
handle of the delegate itself, in the state the delegate returned it (nothing
was read from it), so `Readdir` on the result is `Readdir` on that handle; the
world is unchanged: nothing was written, nothing was posted to the remote
endpoint and no cleanup action was registered. -/
theorem open_directory_returns_delegate_handle (env : Env) (cfg : Config) (name : Bytes)
    (w : World) (f : OSFile) (fi : FileInfo)
    (hOpen : env.DirOpen name = (some f, none))
    (hStat : f.Stat = (some fi, none))
    (hDir : fi.IsDir = true) :
    ∃ h : HttpFile,
      Open env cfg name w = (.returned (some h, none), w)
      ∧ h = .osFile f
      ∧ ∀ n, h.Readdir n = (f.Readdir n).1 := by
  refine ⟨.osFile f, ?_, rfl, fun n => rfl⟩
  simp only [Open, hOpen, hStat, hDir, if_true]

set_option maxRecDepth 20000 in
/-- C4, at a concrete input: the directory `docs` of the sample environment. -/
theorem open_directory_returns_delegate_handle_witness :
    ∃ h : HttpFile,
      Open sampleEnv (configOf (str "/srv") true) (str "/docs") emptyWorld
        = (.returned (some h, none), emptyWorld)
      ∧ h = .osFile dirHandle
      ∧ ∀ n, h.Readdir n = (dirHandle.Readdir n).1 :=
  open_directory_returns_delegate_handle sampleEnv (configOf (str "/srv") true) (str "/docs")
    emptyWorld dirHandle dirHandle.info (by decide) (by decide) (by decide)

/-- C5. `fileSystem.Open` returns an error exactly when the delegate's open
fails, or the stat of the opened handle fails, or the handle is not a
directory and reading it to the end fails; the error returned is that error,
no handle comes with it, and the world is unchanged (nothing was rendered:
nothing written, posted or registered). -/
theorem open_error_iff_delegate_failure (env : Env) (cfg : Config) (name : Bytes)
    (w : World) (h : Option HttpFile) (e : Err) :
    ((Open env cfg name w).1 = .returned (h, some e) ↔
      h = none ∧
        ((env.DirOpen name).2 = some e
          ∨ ∃ f, env.DirOpen name = (some f, none)
              ∧ (f.Stat.2 = some e
                  ∨ ∃ fi, f.Stat = (some fi, none) ∧ fi.IsDir = false
                      ∧ (ReadAll f).1.2 = some e)))
    ∧ ((Open env cfg name w).1 = .returned (h, some e) → (Open env cfg name w).2 = w) := by
  have hc : (none = h ↔ h = none) := eq_comm
  rcases hO : env.DirOpen name with ⟨_ | f, _ | err⟩
  · simp [Open, hO]
  · simp [Open, hO, hc]
  · rcases hS : f.Stat with ⟨_ | fi, _ | serr⟩
    · simp [Open, hO, hS]
    · simp [Open, hO, hS, hc]
    · have hcl := Stat_ok_not_closed f fi hS
      rcases hD : fi.IsDir with _ | _
      · rcases hR : f.readErr with _ | rerr
        · rcases hG : githubFlavouredMarkdown env cfg (f.data.drop f.off) w with ⟨page | p, w2⟩
          · simp [Open, hO, hS, hD, ReadAll, hcl, hR, newFile, hG]
          · simp [Open, hO, hS, hD, ReadAll, hcl, hR, newFile, hG]
        · simp [Open, hO, hS, hD, ReadAll, hcl, hR, hc]
      · simp [Open, hO, hS, hD]
    · simp [Open, hO, hS, hc]
  · simp [Open, hO, hc]

/-! ## The virtual file handle -/

/-- The size a virtual file reports is the length of the unread part of its
content. -/
theorem Stat_Size_eq_Len (f : file) (hc : f.underlyingFile.closed = false)
    (h : f.underlyingFile.statErr = none) :
    f.Stat.1.map fileInfo.Size = some f.Reader.Len := by
  simp [file.Stat, OSFile.Stat, hc, h, fileInfo.Size]

/-- A freshly built virtual file reports the length of its whole content. -/
theorem Stat_Size_fresh (u : OSFile) (page : Bytes) (hc : u.closed = false)
    (h : u.statErr = none) :
    (file.Stat { underlyingFile := u, Reader := NewReader page }).1.map fileInfo.Size
      = some (page.length : Int) := by
  rw [Stat_Size_eq_Len _ hc h]
  simp only [Reader.Len, NewReader]
  by_cases hp : (0 : Int) ≥ (page.length : Int)
  · have : (page.length : Int) = 0 := by omega
    simp [this]
  · simp [hp]

/-- After a successful read of `n` bytes at a position inside the content, the
reported size is smaller by the number of bytes read. -/
theorem Stat_Size_after_Read (f : file) (n : Nat) (hc : f.underlyingFile.closed = false)
    (h : f.underlyingFile.statErr = none)
    (h0 : 0 ≤ f.Reader.i) (hi : f.Reader.i < (f.Reader.s.length : Int)) :
    (f.Read n).2.Stat.1.map fileInfo.Size
      = some ((f.Reader.s.length : Int) - f.Reader.i
          - (min n (f.Reader.s.length - f.Reader.i.toNat) : Nat)) := by
  rw [Stat_Size_eq_Len _ (by simpa [file.Read] using hc) (by simpa [file.Read] using h)]
  have hnot : ¬ f.Reader.i ≥ (f.Reader.s.length : Int) := by omega
  simp only [file.Read, Reader.Read, hnot, if_false, Reader.Len, List.length_take,
    List.length_drop]
  split <;> (congr 1; omega)

/-- `(*file).Close` leaves the embedded reader as it is. -/
theorem Close_keeps_Reader (f : file) : (f.Close).2.Reader = f.Reader := rfl

/-- A `fileInfo` taken before a read reports, once the read has happened, the
unread length the file has then: the reader is shared with the file. -/
theorem Size_seenAfter (fi : fileInfo) (f : file) :
    (fi.seenAfter f).Size = f.Reader.Len := rfl

set_option maxRecDepth 20000 in
/-- C2, the code at a failing input: the virtual file opened for `image.png`
holds 314 bytes and reports 314 when fresh, but after a `Read` of 100 bytes
`Stat().Size()` is 214, and after `Seek(0, 2)` it is 0, while the content is
still 314 bytes long. -/
theorem size_is_unread_length_after_read :
    Open sampleEnv (configOf (str "/srv") true) (str "/image.png") emptyWorld
        = (.returned (some (.htmlFile pngVirtualFile), none),
            { disk := sampleDisk, cleanupFuncs := [⟨samplePaths⟩], posts := [] })
    ∧ pngVirtualFile.Reader.s.length = 314
    ∧ pngVirtualFile.Stat.1.map fileInfo.Size = some 314
    ∧ (pngVirtualFile.Read 100).2.Reader.s.length = 314
    ∧ (pngVirtualFile.Read 100).2.Stat.1.map fileInfo.Size = some 214
    ∧ (pngVirtualFile.Seek 0 2).2.Stat.1.map fileInfo.Size = some 0 := by
  decide

set_option maxRecDepth 20000 in
/-- C9, the code at a failing input: after `Close()` on the virtual file opened
for `image.png`, a `Read` of four bytes returns the first four bytes of the
page and no error; the reader is untouched by `Close`. -/
theorem read_after_close_returns_content :
    (pngVirtualFile.Close).1 = none
    ∧ (pngVirtualFile.Close).2.underlyingFile.closed = true
    ∧ ((pngVirtualFile.Close).2.Read 4).1 = (str "<htm", none)
    ∧ (pngVirtualFile.Close).2.Reader = pngVirtualFile.Reader := by
  decide

/-! ## The remote strategy -/

set_option maxRecDepth 20000 in
/-- C6, as stated, fails: the endpoint of the sample environment answers with
status 403 and an error document, and the remote strategy returns a page with
that document in the article container. -/
theorem remote_render_wraps_non_success_body :
    (sampleEnv.Post [] (str "# Header")).1.StatusCode = 403
    ∧ (sampleEnv.Post [] (str "# Header")).1.Body.data = str "rate limit exceeded"
    ∧ (WriteGitHubFlavoredMarkdownViaGitHub sampleEnv (configOf (str "/srv") false) []
        (str "# Header") emptyWorld).1
      = .returned
          (str ("<html><head><meta charset=\"utf-8\">"
            ++ "<link href=\"https://dl.dropboxusercontent.com/u/8554242/temp/github-flavored-markdown.css\" media=\"all\" rel=\"stylesheet\" type=\"text/css\" />"
            ++ "<link href=\"//cdnjs.cloudflare.com/ajax/libs/octicons/2.1.2/octicons.css\" media=\"all\" rel=\"stylesheet\" type=\"text/css\" />"
            ++ "</head><body><article class=\"markdown-body entry-content\" style=\"padding: 30px;\">"
            ++ "rate limit exceeded"
            ++ "</article></body></html>")) := by
  decide

/-- C6, amended. The remote strategy aborts exactly when the POST itself
fails or reading the response body fails. When the endpoint answers and the
body is read to its end, then whatever the status code of the response, the
render returns the page with the response body in the article container. -/
theorem remote_render_aborts_iff_transport_or_body_error (env : Env) (cfg : Config)
    (buf markdown : Bytes) (w : World) :
    ((∃ p, (WriteGitHubFlavoredMarkdownViaGitHub env cfg buf markdown w).1 = .panicked p) ↔
      ((env.Post w.posts markdown).2 ≠ none
        ∨ (env.Post w.posts markdown).1.Body.err ≠ none))
    ∧ (∀ (code : Nat) (body : Body), body.err = none →
        env.Post w.posts markdown = ({ StatusCode := code, Body := body }, none) →
        (WriteGitHubFlavoredMarkdownViaGitHub env cfg buf markdown w).1
          = .returned
              (buf ++ str "<html><head><meta charset=\"utf-8\">"
                ++ (cfg.remoteCss.map styleLink).flatten
                ++ str "</head><body><article class=\"markdown-body entry-content\" style=\"padding: 30px;\">"
                ++ body.data
                ++ str "</article></body></html>")) := by
  constructor
  · rcases hPost : env.Post w.posts markdown with ⟨resp, _ | err⟩
    · rcases hB : resp.Body.err with _ | berr
      · simp [WriteGitHubFlavoredMarkdownViaGitHub, hPost, Copy, hB]
      · simp [WriteGitHubFlavoredMarkdownViaGitHub, hPost, Copy, hB]
    · simp [WriteGitHubFlavoredMarkdownViaGitHub, hPost]
  · intro code body hB hPost
    rw [remote_page env cfg buf markdown w _ hPost hB]

set_option maxRecDepth 20000 in
/-- C6 amended, at a concrete input: an endpoint that answers 500 with a body
yields a page around that body; the render does not abort. -/
theorem remote_render_aborts_iff_transport_or_body_error_witness :
    (WriteGitHubFlavoredMarkdownViaGitHub
        { sampleEnv with
          Post := fun _ _ => ({ StatusCode := 500, Body := { data := str "oops", err := none } }, none) }
        (configOf (str "/srv") false) [] (str "# Header") emptyWorld).1
      = .returned
          ([] ++ str "<html><head><meta charset=\"utf-8\">"
            ++ ((configOf (str "/srv") false).remoteCss.map styleLink).flatten
            ++ str "</head><body><article class=\"markdown-body entry-content\" style=\"padding: 30px;\">"
            ++ str "oops"
            ++ str "</article></body></html>") :=
  (remote_render_aborts_iff_transport_or_body_error
    { sampleEnv with
      Post := fun _ _ => ({ StatusCode := 500, Body := { data := str "oops", err := none } }, none) }
    (configOf (str "/srv") false) [] (str "# Header") emptyWorld).2 500
    { data := str "oops", err := none } rfl rfl

/-! ## Asset files and the cleanup actions -/

/-- A file is on the disk after all files at `p` were removed exactly when it
was there before and its path is not `p`. -/
theorem has_filter (d : Disk) (p q : Bytes) :
    Disk.has (d.filter (fun e => decide (e.1 ≠ p))) q = (d.has q && decide (q ≠ p)) := by
  rw [Bool.eq_iff_iff]
  simp only [Disk.has, List.any_eq_true, List.mem_filter, decide_eq_true_eq, Bool.and_eq_true,
    ne_eq, decide_not, Bool.not_eq_true', decide_eq_false_iff_not]
  constructor
  · rintro ⟨e, ⟨he, hne⟩, heq⟩
    exact ⟨⟨e, he, heq⟩, fun h => hne (heq.trans h)⟩
  · rintro ⟨⟨e, he, heq⟩, hne⟩
    exact ⟨e, ⟨he, fun h => hne (heq.symm.trans h)⟩, heq⟩

/-- A successful `WriteFile` leaves the file at its path, keeps every other
file, and touches nothing but the disk. -/
theorem WriteFile_ok (env : Env) (w w1 : World) (path data : Bytes)
    (h : WriteFile env w path data = (none, w1)) :
    w1.disk.has path = true ∧ (∀ q, w.disk.has q = true → w1.disk.has q = true)
      ∧ w1.cleanupFuncs = w.cleanupFuncs ∧ w1.posts = w.posts := by
  unfold WriteFile at h
  rcases he : env.writeErr path with _ | err
  · simp only [he, Prod.mk.injEq, true_and] at h
    subst h
    refine ⟨by simp [Disk.has], ?_, rfl, rfl⟩
    intro q hq
    by_cases hqp : q = path
    · simp [Disk.has, hqp]
    · have := has_filter w.disk path q
      simp only [Disk.has] at this hq ⊢
      simp only [List.any_cons, this, hq, Bool.true_and, Bool.or_eq_true, decide_eq_true_eq]
      right; exact hqp
  · simp [he] at h

/-- When the loop of `createAssets` returns, it returns the joined path of
every asset name in order, every such file is on the disk, and files that were
there before still are. -/
theorem createAssetsLoop_ok (env : Env) (root : Bytes) (names paths ps : List Bytes)
    (w w1 : World) (h : createAssetsLoop env root names paths w = (.returned ps, w1)) :
    ps = paths ++ names.map (Join root)
      ∧ (∀ a ∈ names, w1.disk.has (Join root a) = true)
      ∧ (∀ q, w.disk.has q = true → w1.disk.has q = true)
      ∧ w1.cleanupFuncs = w.cleanupFuncs ∧ w1.posts = w.posts := by
  induction names generalizing paths w with
  | nil =>
    simp only [createAssetsLoop, Prod.mk.injEq, Outcome.returned.injEq] at h
    obtain ⟨h1, h2⟩ := h
    subst h1; subst h2
    simp
  | cons a rest ih =>
    unfold createAssetsLoop at h
    rcases hA : env.Asset a with ⟨data, _ | err⟩
    · rcases hW : WriteFile env w (Join root a) data with ⟨_ | err, w2⟩
      · simp only [hA, hW] at h
        obtain ⟨hps, hnew, hold, hcf, hpo⟩ := ih _ _ h
        obtain ⟨hw1, hw2, hw3, hw4⟩ := WriteFile_ok env w w2 _ _ hW
        refine ⟨by simp [hps], ?_, fun q hq => hold q (hw2 q hq), hcf.trans hw3, hpo.trans hw4⟩
        intro b hb
        rcases List.mem_cons.mp hb with rfl | hb
        · exact hold _ hw1
        · exact hnew b hb
      · simp [hA, hW] at h
    · simp [hA] at h

/-- A local render that returns has resolved the root, registered one cleanup
action for the joined paths of all asset names, and left all those files on
the disk. -/
theorem githubFlavouredMarkdown_local_ok (env : Env) (cfg : Config) (input page : Bytes)
    (w w1 : World) (hOff : cfg.offlineFlag = true)
    (h : githubFlavouredMarkdown env cfg input w = (.returned page, w1)) :
    ∃ absRoot, Abs env cfg.dirFlag = (absRoot, none)
      ∧ w1.cleanupFuncs = w.cleanupFuncs ++ [⟨env.AssetNames.map (Join absRoot)⟩]
      ∧ (∀ a ∈ env.AssetNames, w1.disk.has (Join absRoot a) = true) := by
  unfold githubFlavouredMarkdown at h
  simp only [hOff, if_true] at h
  unfold WriteGitHubFlavoredMarkdownViaLocal at h
  rcases hAbs : Abs env cfg.dirFlag with ⟨absRoot, _ | err⟩
  · rcases hAs : createAssets env absRoot w with ⟨paths | p, w2⟩
    · simp only [hAbs, hAs, Prod.mk.injEq, Outcome.returned.injEq] at h
      obtain ⟨hps, hnew, _, hcf, _⟩ := createAssetsLoop_ok env absRoot _ _ _ _ _ hAs
      obtain ⟨_, hw⟩ := h
      subst hw
      refine ⟨absRoot, rfl, ?_, hnew⟩
      simp [hps, hcf]
    · simp [hAbs, hAs] at h
  · simp [hAbs] at h

/-- The loop of a cleanup action removes every path of its list, brings no
file back, and touches nothing but the disk. -/
theorem cleanup_fold_removes (paths : List Bytes) (acc : List Err × World) :
    (∀ p ∈ paths, (paths.foldl cleanupStep acc).2.disk.has p = false)
      ∧ (∀ q, acc.2.disk.has q = false → (paths.foldl cleanupStep acc).2.disk.has q = false) := by
  induction paths generalizing acc with
  | nil => simp
  | cons a rest ih =>
    have hstep : ∀ q, (acc.2.disk.has q = false ∨ q = a) →
        (cleanupStep acc a).2.disk.has q = false := by
      intro q hq
      unfold cleanupStep Remove
      by_cases hh : acc.2.disk.has a = true
      · simp only [hh, if_true, has_filter]
        rcases hq with hq | hq
        · simp [hq]
        · simp [hq]
      · simp only [hh]
        rcases hq with hq | hq
        · exact hq
        · rw [hq]; simpa using hh
    obtain ⟨ih1, ih2⟩ := ih (cleanupStep acc a)
    refine ⟨?_, ?_⟩
    · intro p hp
      rcases List.mem_cons.mp hp with rfl | hp
      · exact ih2 _ (hstep _ (Or.inr rfl))
      · exact ih1 p hp
    · intro q hq
      exact ih2 q (hstep q (Or.inl hq))

/-- When none of the paths is on the disk, every removal of the loop fails: one
error is collected per path and the world is unchanged. -/
theorem cleanup_fold_all_fail (paths : List Bytes) (acc : List Err × World)
    (h : ∀ p ∈ paths, acc.2.disk.has p = false) :
    (paths.foldl cleanupStep acc).1.length = acc.1.length + paths.length
      ∧ (paths.foldl cleanupStep acc).2 = acc.2 := by
  induction paths generalizing acc with
  | nil => simp
  | cons a rest ih =>
    have ha : acc.2.disk.has a = false := h a (List.mem_cons_self _ _)
    have hstep : cleanupStep acc a
        = (acc.1 ++ [⟨"remove: no such file or directory"⟩], acc.2) := by
      simp [cleanupStep, Remove, ha]
    simp only [List.foldl_cons, hstep]
    obtain ⟨h1, h2⟩ := ih (acc.1 ++ [⟨"remove: no such file or directory"⟩], acc.2)
      (fun p hp => h p (List.mem_cons_of_mem _ hp))
    refine ⟨?_, h2⟩
    rw [h1]
    simp only [List.length_append, List.length_cons, List.length_nil]
    omega

/-- When the paths are pairwise distinct and all on the disk, no removal of
the loop fails. -/
theorem cleanup_fold_none_fail (paths : List Bytes) (acc : List Err × World)
    (hnd : paths.Nodup) (h : ∀ p ∈ paths, acc.2.disk.has p = true) :
    (paths.foldl cleanupStep acc).1 = acc.1 := by
  induction paths generalizing acc with
  | nil => simp
  | cons a rest ih =>
    have ha : acc.2.disk.has a = true := h a (List.mem_cons_self _ _)
    have hstep : cleanupStep acc a
        = (acc.1, { acc.2 with disk := acc.2.disk.filter (fun e => decide (e.1 ≠ a)) }) := by
      simp [cleanupStep, Remove, ha]
    simp only [List.foldl_cons, hstep]
    obtain ⟨hna, hnd2⟩ := List.nodup_cons.mp hnd
    rw [ih _ hnd2]
    intro p hp
    have hpa : p ≠ a := fun e => hna (e ▸ hp)
    simp only [has_filter, h p (List.mem_cons_of_mem _ hp), Bool.true_and, decide_eq_true_eq]
    exact hpa

/-- The world a cleanup action leaves is the world its loop leaves, whether
it panics or not. -/
theorem Cleanup_run_world (c : Cleanup) (w : World) :
    (c.run w).2 = (c.paths.foldl cleanupStep ([], w)).2 := by
  unfold Cleanup.run
  simp only
  split <;> rfl

/-- A cleanup action none of whose paths is on the disk panics with one error
per path, provided it has a path at all. -/
theorem Cleanup_run_all_missing (c : Cleanup) (w : World) (hne : c.paths ≠ [])
    (h : ∀ p ∈ c.paths, w.disk.has p = false) :
    ∃ errs, (c.run w).1 = .panicked (.errs errs) ∧ errs.length = c.paths.length := by
  obtain ⟨h1, _⟩ := cleanup_fold_all_fail c.paths ([], w) h
  simp only [List.length_nil, Nat.zero_add] at h1
  have hpos : c.paths.length ≠ 0 := fun h0 => hne (List.length_eq_zero.mp h0)
  refine ⟨(c.paths.foldl cleanupStep ([], w)).1, ?_, h1⟩
  unfold Cleanup.run
  simp only [h1, hpos, ne_eq, not_false_eq_true, if_true]

/-- C10. After two local renders into the same root with a non-empty asset
table, the two cleanup actions registered carry the same non-empty list of
asset paths, all of which are on the disk. Run in registration order with no
other change, the first action leaves none of these files on the disk (and
does not panic when the paths are pairwise distinct), and the second action
panics with one error per path, each removal failing on a missing file. So
the loop of `main` over a list that held only these two actions ends in a
panic. -/
theorem second_cleanup_panics (env : Env) (cfg : Config) (in1 in2 pg1 pg2 : Bytes)
    (w0 w1 w2 : World)
    (hOff : cfg.offlineFlag = true)
    (hNames : env.AssetNames ≠ [])
    (h1 : githubFlavouredMarkdown env cfg in1 w0 = (.returned pg1, w1))
    (h2 : githubFlavouredMarkdown env cfg in2 w1 = (.returned pg2, w2)) :
    ∃ fn1 fn2 : Cleanup,
      w2.cleanupFuncs = w0.cleanupFuncs ++ [fn1, fn2]
      ∧ fn1.paths ≠ [] ∧ fn2.paths = fn1.paths
      ∧ (∀ p ∈ fn1.paths, w2.disk.has p = true)
      ∧ (∀ p ∈ fn1.paths, (fn1.run w2).2.disk.has p = false)
      ∧ (fn1.paths.Nodup → (fn1.run w2).1 = .returned ())
      ∧ (∃ errs, (fn2.run (fn1.run w2).2).1 = .panicked (.errs errs)
          ∧ errs.length = fn2.paths.length)
      ∧ (w0.cleanupFuncs = [] → ∃ p, (runCleanups w2.cleanupFuncs w2).1 = .panicked p) := by
  obtain ⟨r1, hA1, hcf1, _⟩ := githubFlavouredMarkdown_local_ok env cfg in1 pg1 w0 w1 hOff h1
  obtain ⟨r2, hA2, hcf2, hdisk⟩ := githubFlavouredMarkdown_local_ok env cfg in2 pg2 w1 w2 hOff h2
  have hr : r2 = r1 := by
    rw [hA1] at hA2
    simp only [Prod.mk.injEq, and_true] at hA2
    exact hA2.symm
  subst hr
  have hne : (env.AssetNames.map (Join r2)) ≠ [] := by
    intro h0
    exact hNames (List.map_eq_nil_iff.mp h0)
  have hall : ∀ p ∈ env.AssetNames.map (Join r2), w2.disk.has p = true := by
    intro p hp
    obtain ⟨a, ha, rfl⟩ := List.mem_map.mp hp
    exact hdisk a ha
  have hgone : ∀ p ∈ env.AssetNames.map (Join r2),
      (Cleanup.run ⟨env.AssetNames.map (Join r2)⟩ w2).2.disk.has p = false := by
    intro p hp
    rw [Cleanup_run_world]
    exact (cleanup_fold_removes _ _).1 p hp
  have hsecond := Cleanup_run_all_missing ⟨env.AssetNames.map (Join r2)⟩
    (Cleanup.run ⟨env.AssetNames.map (Join r2)⟩ w2).2 hne hgone
  refine ⟨⟨env.AssetNames.map (Join r2)⟩, ⟨env.AssetNames.map (Join r2)⟩, ?_, hne, rfl, hall,
    hgone, ?_, hsecond, ?_⟩
  · rw [hcf2, hcf1]; simp
  · intro hnd
    have := cleanup_fold_none_fail (env.AssetNames.map (Join r2)) ([], w2) hnd hall
    unfold Cleanup.run
    simp only [this, List.length_nil, ne_eq, not_true_eq_false, if_false]
  · intro h0
    rw [hcf2, hcf1, h0]
    simp only [List.nil_append, List.cons_append, runCleanups]
    rcases hrun : Cleanup.run ⟨env.AssetNames.map (Join r2)⟩ w2 with ⟨u | p, w3⟩
    · obtain ⟨errs, he, _⟩ := hsecond
      rw [hrun] at he
      simp only at he
      simp only
      rcases hrun2 : Cleanup.run ⟨env.AssetNames.map (Join r2)⟩ w3 with ⟨u2 | p2, w4⟩
      · rw [hrun2] at he; simp at he
      · exact ⟨p2, rfl⟩
    · exact ⟨p, rfl⟩

set_option maxRecDepth 20000 in
/-- C10, at a concrete input: two local renders into `/srv` in the sample
environment, starting from an empty world. -/
theorem second_cleanup_panics_witness :
    ∃ fn1 fn2 : Cleanup,
      worldAfterTwo.cleanupFuncs = emptyWorld.cleanupFuncs ++ [fn1, fn2]
      ∧ fn1.paths ≠ [] ∧ fn2.paths = fn1.paths
      ∧ (∀ p ∈ fn1.paths, worldAfterTwo.disk.has p = true)
      ∧ (∀ p ∈ fn1.paths, (fn1.run worldAfterTwo).2.disk.has p = false)
      ∧ (fn1.paths.Nodup → (fn1.run worldAfterTwo).1 = .returned ())
      ∧ (∃ errs, (fn2.run (fn1.run worldAfterTwo).2).1 = .panicked (.errs errs)
          ∧ errs.length = fn2.paths.length)
      ∧ (emptyWorld.cleanupFuncs = [] →
          ∃ p, (runCleanups worldAfterTwo.cleanupFuncs worldAfterTwo).1 = .panicked p) :=
  second_cleanup_panics sampleEnv (configOf (str "/srv") true) (str "# A") (str "# B")
    (localPageOf (str "<p># A</p>")) (localPageOf (str "<p># B</p>"))
    emptyWorld worldAfterOne worldAfterTwo rfl (by decide) (by decide) (by decide)

/-! ## The index walker -/

/-- A key that is not in the map is looked up in vain. -/
theorem GoMap.get_of_not_mem (m : GoMap) (k : Bytes) (h : k ∉ m.keys) : m.get k = none := by
  unfold GoMap.get
  rw [Option.map_eq_none', List.find?_eq_none]
  intro e he
  simp only [decide_eq_true_eq]
  intro hk
  exact h (List.mem_map.mpr ⟨e, he, hk⟩)

/-- The lookup of a key finds its first entry. -/
theorem GoMap.get_mid (pre post : GoMap) (k : Bytes) (v : List Bytes) (h : k ∉ pre.keys) :
    GoMap.get (pre ++ (k, v) :: post) k = some v := by
  induction pre with
  | nil => simp [GoMap.get]
  | cons e rest ih =>
    have hne : ¬ e.1 = k := fun hk => h (by simp [GoMap.keys, ← hk])
    have hrest : k ∉ GoMap.keys rest := fun hk => h (by
      simp only [GoMap.keys, List.map_cons, List.mem_cons]; right; exact hk)
    have := ih hrest
    simp only [GoMap.get, List.cons_append, List.find?_cons, hne, decide_False] at this ⊢
    exact this

/-- Assigning to a key that is not in the map adds an entry at the end. -/
theorem GoMap.set_of_not_mem (m : GoMap) (k : Bytes) (v : List Bytes) (h : k ∉ m.keys) :
    m.set k v = m ++ [(k, v)] := by
  unfold GoMap.set
  have : m.any (fun e => decide (e.1 = k)) = false := by
    rw [List.any_eq_false]
    intro e he
    simp only [decide_eq_true_eq]
    intro hk
    exact h (List.mem_map.mpr ⟨e, he, hk⟩)
  simp [this]

/-- Mapping the replacement of `k` over entries none of which has key `k`
changes nothing. -/
theorem map_replace_of_not_mem (m : GoMap) (k : Bytes) (v : List Bytes) (h : k ∉ m.keys) :
    m.map (fun e => if e.1 = k then (k, v) else e) = m := by
  induction m with
  | nil => rfl
  | cons e rest ih =>
    have hne : ¬ e.1 = k := fun hk => h (by simp [GoMap.keys, ← hk])
    have hrest : k ∉ GoMap.keys rest := fun hk => h (by
      simp only [GoMap.keys, List.map_cons, List.mem_cons]; right; exact hk)
    simp only [List.map_cons, hne, if_false, ih hrest]

/-- Assigning to a key that has exactly one entry replaces the value of that
entry. -/
theorem GoMap.set_mid (pre post : GoMap) (k : Bytes) (v v2 : List Bytes)
    (h1 : k ∉ pre.keys) (h2 : k ∉ post.keys) :
    GoMap.set (pre ++ (k, v) :: post) k v2 = pre ++ (k, v2) :: post := by
  unfold GoMap.set
  have : (pre ++ (k, v) :: post).any (fun e => decide (e.1 = k)) = true := by
    simp
  simp only [this, if_true, List.map_append, List.map_cons, map_replace_of_not_mem _ _ _ h1,
    map_replace_of_not_mem _ _ _ h2]

/-- The method `walk` returns nil whenever it is given a file info. -/
theorem walk_returns_nil (i : indexWalker) (path : Bytes) (info : FileInfo) :
    (i.walk path (some info)).1 = .returned none := rfl

/-- Visiting a directory whose path is not yet a key adds the key with an
empty list. -/
theorem walk_dir (i : indexWalker) (path : Bytes) (info : FileInfo) (m : GoMap)
    (hm : (match i.dirToFiles with | none => [] | some m => m) = m)
    (hd : info.IsDir = true) (hk : path ∉ m.keys) :
    i.walk path (some info) = (.returned none, ⟨some (m ++ [(path, [])])⟩) := by
  unfold indexWalker.walk
  simp only [hm, hd, if_true, GoMap.get_of_not_mem m path hk, GoMap.set_of_not_mem m path [] hk,
    not_true_eq_false, if_false]

/-- Visiting a file whose parent directory, as `filepath.Dir` computes it, is
a key with exactly one entry appends the name of the file to that entry. -/
theorem walk_file (i : indexWalker) (path : Bytes) (info : FileInfo) (pre post : GoMap)
    (P : Bytes) (fs : List Bytes)
    (hm : i.dirToFiles = some (pre ++ (P, fs) :: post))
    (hd : info.IsDir = false) (hP : Dir path = P)
    (h1 : P ∉ pre.keys) (h2 : P ∉ post.keys) :
    i.walk path (some info)
      = (.returned none, ⟨some (pre ++ (P, fs ++ [info.Name]) :: post)⟩) := by
  unfold indexWalker.walk
  simp only [hm, hd, Bool.false_eq_true, if_false, not_false_eq_true, if_true, hP,
    GoMap.get_mid pre post P fs h1, GoMap.set_mid pre post P fs _ h1 h2, Option.getD_some]

mutual
/-- Walking a directory found at `path`, whose path and the paths of the
directories below it are new and pairwise distinct keys, appends the expected
index of the directory to the map. -/
theorem walkNode_dir_spec (name : Bytes) (cs : List Node) (path : Bytes) (i : indexWalker)
    (m : GoMap)
    (hm : (match i.dirToFiles with | none => [] | some m => m) = m)
    (hok : dirOfJoinOk path (.dir name cs))
    (hnd : (m.keys ++ (expectedIndex path (.dir name cs)).keys).Nodup) :
    walkNode path (.dir name cs) i
      = (.returned none, ⟨some (m ++ expectedIndex path (.dir name cs))⟩) := by
  have hk : path ∉ m.keys := by
    intro hin
    simp only [expectedIndex, GoMap.keys, List.map_cons] at hnd
    have := (List.nodup_append.mp hnd).2.2
    exact this hin (List.mem_cons_self _ _) 
  have hw := walk_dir i path (Node.dir name cs).info m hm rfl hk
  unfold walkNode
  simp only [hw]
  have hnd2 : ((m ++ (path, []) :: ([] : GoMap)).keys
      ++ (expectedIndexChildren path cs).keys).Nodup := by
    simp only [expectedIndex, GoMap.keys, List.map_cons, List.map_append, List.map_nil,
      List.append_assoc, List.cons_append, List.nil_append] at hnd ⊢
    exact hnd
  have hkids := walkChildren_spec cs path m [] [] (by simpa [dirOfJoinOk] using hok) hnd2
  simp only [List.nil_append] at hkids
  rw [hkids]
  simp only [expectedIndex, List.nil_append]
/-- Walking the entries of the directory found at `path`, which has exactly
one entry in the map, appends the names of the files among them to that
entry and the expected index of the directories among them to the map. -/
theorem walkChildren_spec (cs : List Node) (path : Bytes) (pre post : GoMap)
    (fs : List Bytes)
    (hok : dirOfJoinOkList path cs)
    (hnd : ((pre ++ (path, fs) :: post).keys ++ (expectedIndexChildren path cs).keys).Nodup) :
    walkChildren path cs ⟨some (pre ++ (path, fs) :: post)⟩
      = (.returned none,
          ⟨some (pre ++ (path, fs ++ fileNames cs) :: (post ++ expectedIndexChildren path cs))⟩) := by
  match cs with
  | [] =>
    simp only [walkChildren, fileNames, expectedIndexChildren, List.append_nil]
  | .file n :: rest =>
    obtain ⟨hdir, _, hrest⟩ := hok
    have hnd0 := hnd
    simp only [expectedIndexChildren, expectedIndex, List.nil_append] at hnd
    have hkeys : (pre ++ (path, fs) :: post).keys.Nodup := (List.nodup_append.mp hnd).1
    have hpre : path ∉ pre.keys ∧ path ∉ post.keys := by
      simp only [GoMap.keys, List.map_append, List.map_cons] at hkeys
      have h1 := List.nodup_append.mp hkeys
      refine ⟨fun hin => h1.2.2 hin (List.mem_cons_self _ _), ?_⟩
      exact (List.nodup_cons.mp h1.2.1).1
    have hw := walk_file ⟨some (pre ++ (path, fs) :: post)⟩ (Join path n) (Node.file n).info
      pre post path fs rfl rfl (hdir rfl) hpre.1 hpre.2
    have hnd2 : ((pre ++ (path, fs ++ [n]) :: post).keys
        ++ (expectedIndexChildren path rest).keys).Nodup := by
      simp only [GoMap.keys, List.map_append, List.map_cons] at hnd ⊢
      exact hnd
    have ih := walkChildren_spec rest path pre post (fs ++ [n]) hrest hnd2
    have hw2 : indexWalker.walk ⟨some (pre ++ (path, fs) :: post)⟩ (Join path n)
        (some (Node.file n).info)
          = (.returned none, ⟨some (pre ++ (path, fs ++ [n]) :: post)⟩) := hw
    rw [walkChildren]
    simp only [walkNode, Node.name]
    rw [hw2]
    simp only [ih, fileNames, expectedIndexChildren, expectedIndex, List.nil_append,
      List.append_assoc, List.singleton_append]
  | .dir n kids :: rest =>
    obtain ⟨_, hsub, hrest⟩ := hok
    simp only [expectedIndexChildren, Node.name] at hnd
    have hnd1 : ((pre ++ (path, fs) :: post).keys
        ++ (expectedIndex (Join path n) (.dir n kids)).keys).Nodup := by
      simp only [GoMap.keys, List.map_append, ← List.append_assoc] at hnd ⊢
      exact (List.nodup_append.mp hnd).1
    have hnode := walkNode_dir_spec n kids (Join path n) ⟨some (pre ++ (path, fs) :: post)⟩
      (pre ++ (path, fs) :: post) rfl hsub hnd1
    have hnd2 : ((pre ++ (path, fs) :: (post ++ expectedIndex (Join path n) (.dir n kids))).keys
        ++ (expectedIndexChildren path rest).keys).Nodup := by
      simp only [GoMap.keys, List.map_append, List.map_cons, List.append_assoc,
        List.cons_append] at hnd ⊢
      exact hnd
    have ih := walkChildren_spec rest path pre
      (post ++ expectedIndex (Join path n) (.dir n kids)) fs hrest hnd2
    simp only [walkChildren, Node.name, hnode, List.append_assoc, List.cons_append, ih, fileNames,
      expectedIndexChildren]
end

/-! ## `path.Clean` on paths in `Clean` form -/

theorem length_zero_of_le_zero (l : Bytes) (h : l.length ≤ 0) : l = [] :=
  List.length_eq_zero.mp (Nat.le_zero.mp h)

/-- With enough fuel for the bytes that remain, the result of the loop of
`Clean` does not depend on the fuel. -/
theorem cleanLoop_fuel (r : Bool) (f1 : Nat) :
    ∀ (f2 : Nat) (rest out : Bytes) (dd : Nat), rest.length ≤ f1 → rest.length ≤ f2 →
      cleanLoop r f1 rest out dd = cleanLoop r f2 rest out dd := by
  induction f1 with
  | zero =>
    intro f2 rest out dd h1 _
    have := length_zero_of_le_zero rest h1
    subst this
    cases f2 <;> simp [cleanLoop]
  | succ n ih =>
    intro f2 rest out dd h1 h2
    cases f2 with
    | zero =>
      have := length_zero_of_le_zero rest h2
      subst this
      simp [cleanLoop]
    | succ m =>
      cases rest with
      | nil => simp [cleanLoop]
      | cons c t =>
        simp only [List.length_cons, Nat.add_le_add_iff_right] at h1 h2
        have htt1 : t.tail.length ≤ n := by
          have := List.length_tail t; omega
        have htt2 : t.tail.length ≤ m := by
          have := List.length_tail t; omega
        simp only [cleanLoop]
        by_cases hc : c = slash
        · simp only [hc, if_true]
          exact ih m t out dd h1 h2
        · simp only [hc, if_false]
          have hdw : (List.dropWhile (fun b => decide (b ≠ slash)) (c :: t)).length ≤ t.length := by
            rw [List.dropWhile_cons]
            simp only [hc, ne_eq, not_false_eq_true, decide_True, if_true]
            exact (List.dropWhile_sublist _).length_le
          split_ifs <;>
            first
            | exact ih m _ _ _ h1 h2
            | exact ih m _ _ _ htt1 htt2
            | exact ih m _ _ _ (by omega) (by omega)

/-- Copying a path element stops at the end of `A` when what follows is empty
or starts with `/`. -/
theorem takeWhile_append_boundary (A B : Bytes) (hB : B = [] ∨ B.head? = some slash) :
    (A ++ B).takeWhile (fun b => decide (b ≠ slash)) = A.takeWhile (fun b => decide (b ≠ slash)) := by
  induction A with
  | nil =>
    rcases hB with rfl | hB
    · rfl
    · cases B with
      | nil => rfl
      | cons x B2 =>
        simp only [List.head?_cons, Option.some.injEq] at hB
        subst hB
        simp [List.takeWhile_cons]
  | cons a A2 ih =>
    simp only [List.cons_append, List.takeWhile_cons, ih]

/-- What remains after copying a path element of `A` is the rest of `A` and
all of `B`, when `B` is empty or starts with `/`. -/
theorem dropWhile_append_boundary (A B : Bytes) (hB : B = [] ∨ B.head? = some slash) :
    (A ++ B).dropWhile (fun b => decide (b ≠ slash))
      = A.dropWhile (fun b => decide (b ≠ slash)) ++ B := by
  induction A with
  | nil =>
    rcases hB with rfl | hB
    · rfl
    · cases B with
      | nil => rfl
      | cons x B2 =>
        simp only [List.head?_cons, Option.some.injEq] at hB
        subst hB
        simp [List.dropWhile_cons]
  | cons a A2 ih =>
    simp only [List.cons_append, List.dropWhile_cons, ih]
    split <;> rfl

/-- The test for the end of a path element gives the same answer on `t ++ B`
as on `t`, when `B` is empty or starts with `/`. -/
theorem boundary_append (t B : Bytes) (hB : B = [] ∨ B.head? = some slash) :
    (t ++ B = [] ∨ (t ++ B).head? = some slash) ↔ (t = [] ∨ t.head? = some slash) := by
  cases t with
  | nil =>
    simp only [List.nil_append, List.head?_nil, true_or, iff_true]
    exact hB
  | cons x t2 => simp

/-- The test for a `..` element gives the same answer on `t ++ B` as on `t`,
when `B` is empty or starts with `/`. -/
theorem dotdot_append (t B : Bytes) (hB : B = [] ∨ B.head? = some slash) :
    ((t ++ B).head? = some dot ∧ ((t ++ B).tail = [] ∨ (t ++ B).tail.head? = some slash))
      ↔ (t.head? = some dot ∧ (t.tail = [] ∨ t.tail.head? = some slash)) := by
  cases t with
  | nil =>
    have hne : ¬ (B.head? = some dot) := by
      rcases hB with rfl | hB
      · simp
      · rw [hB]; decide
    simp [hne]
  | cons x t2 =>
    simp only [List.cons_append, List.head?_cons, List.tail_cons, boundary_append t2 B hB]

/-- The loop of `Clean` run on `A ++ B`, where `B` is empty or starts with
`/`, is the loop run on `A` and then on `B`. -/
theorem cleanLoop_append (r : Bool) (fuel : Nat) :
    ∀ (A B out : Bytes) (dd : Nat), A.length ≤ fuel → (B = [] ∨ B.head? = some slash) →
      cleanLoop r (fuel + B.length) (A ++ B) out dd
        = cleanLoop r B.length B (cleanLoop r fuel A out dd).1 (cleanLoop r fuel A out dd).2 := by
  induction fuel with
  | zero =>
    intro A B out dd hA _
    have := length_zero_of_le_zero A hA
    subst this
    simp [cleanLoop]
  | succ n ih =>
    intro A B out dd hA hB
    cases A with
    | nil =>
      simp only [List.nil_append, cleanLoop]
      exact cleanLoop_fuel r _ _ B out dd (by omega) (le_refl _)
    | cons c t =>
      simp only [List.length_cons, Nat.add_le_add_iff_right] at hA
      have htt : t.tail.length ≤ n := by
        have := List.length_tail t; omega
      have hfuel : n + 1 + B.length = (n + B.length) + 1 := by omega
      rw [hfuel]
      simp only [List.cons_append, cleanLoop, boundary_append t B hB, dotdot_append t B hB]
      by_cases hc : c = slash
      · simp only [hc, if_true]
        exact ih t B out dd hA hB
      · simp only [hc, if_false]
        by_cases h1 : c = dot ∧ (t = [] ∨ t.head? = some slash)
        · simp only [h1, and_self, if_true]
          exact ih t B out dd hA hB
        · simp only [h1, if_false]
          by_cases h2 : c = dot ∧ t.head? = some dot ∧ (t.tail = [] ∨ t.tail.head? = some slash)
          · have htne : t ≠ [] := by
              intro h0; rw [h0] at h2; simp at h2
            have htail : (t ++ B).tail = t.tail ++ B := by
              cases t with
              | nil => exact absurd rfl htne
              | cons x t2 => rfl
            simp only [h2, and_self, if_true, htail]
            split_ifs <;> exact ih _ B _ _ htt hB
          · simp only [h2, if_false]
            have hdw : (List.dropWhile (fun b => decide (b ≠ slash)) (c :: t)).length ≤ n := by
              rw [List.dropWhile_cons]
              simp only [hc, ne_eq, not_false_eq_true, decide_True, if_true]
              exact le_trans (List.dropWhile_sublist _).length_le hA
            have e1 := takeWhile_append_boundary (c :: t) B hB
            have e2 := dropWhile_append_boundary (c :: t) B hB
            simp only [List.cons_append] at e1 e2
            rw [e1, e2]
            exact ih _ B _ _ hdw hB

/-- The loop of `Clean` copies a valid entry name to the output, after a
`/` when the output is not just the root. -/
theorem cleanLoop_name (r : Bool) (n : Bytes) (hv : validName n) (fuel : Nat)
    (hf : n.length ≤ fuel) (out : Bytes) (dd : Nat) :
    cleanLoop r fuel n out dd
      = ((if (r = true ∧ out.length ≠ 1) ∨ (r = false ∧ out.length ≠ 0)
            then out ++ [slash] else out) ++ n, dd) := by
  obtain ⟨hne, hns, hnd, hndd⟩ := hv
  cases n with
  | nil => exact absurd rfl hne
  | cons c t =>
    cases fuel with
    | zero => simp at hf
    | succ f =>
      have hc : ¬ c = slash := fun h => hns (by simp [h])
      have hts : slash ∉ t := fun h => hns (List.mem_cons_of_mem _ h)
      have h1 : ¬ (c = dot ∧ (t = [] ∨ t.head? = some slash)) := by
        rintro ⟨hcd, ht | ht⟩
        · exact hnd (by rw [hcd, ht])
        · cases t with
          | nil => simp at ht
          | cons x t2 =>
            simp only [List.head?_cons, Option.some.injEq] at ht
            exact hts (by simp [ht])
      have h2 : ¬ (c = dot ∧ t.head? = some dot ∧ (t.tail = [] ∨ t.tail.head? = some slash)) := by
        rintro ⟨hcd, ht, htt⟩
        cases t with
        | nil => simp at ht
        | cons x t2 =>
          simp only [List.head?_cons, Option.some.injEq] at ht
          rcases htt with htt | htt
          · simp only [List.tail_cons] at htt
            exact hndd (by rw [hcd, ht, htt])
          · cases t2 with
            | nil => simp at htt
            | cons y t3 =>
              simp only [List.tail_cons, List.head?_cons, Option.some.injEq] at htt
              exact hts (by simp [htt])
      have hall : ∀ b ∈ c :: t, decide (b ≠ slash) = true := by
        intro b hb
        simp only [ne_eq, decide_not, Bool.not_eq_true', decide_eq_false_iff_not]
        intro hbs
        exact hns (hbs ▸ hb)
      have htw : (c :: t).takeWhile (fun b => decide (b ≠ slash)) = c :: t :=
        List.takeWhile_eq_self_iff.mpr hall
      have hdw : (c :: t).dropWhile (fun b => decide (b ≠ slash)) = [] :=
        List.dropWhile_eq_nil_iff.mpr hall
      have hend : ∀ (o : Bytes), cleanLoop r f [] o dd = (o, dd) := by
        intro o; cases f <;> simp [cleanLoop]
      simp only [cleanLoop, hc, h1, h2, if_false, htw, hdw, hend]

/-- The result of `Clean` on a non-empty path is the output of its loop, or
`.` when the output is empty. -/
theorem Clean_eq_cleanState (P : Bytes) (hP : P ≠ []) :
    Clean P = if (cleanState P).1.length = 0 then [dot] else (cleanState P).1 := by
  cases P with
  | nil => exact absurd rfl hP
  | cons c t =>
    by_cases hc : c = slash
    · have := cleanLoop_fuel true ((c :: t).length + 1) t.length t [slash] 1
        (by simp only [List.length_cons]; omega) (le_refl _)
      simp only [Clean, cleanState, hc, decide_True, if_true, ← this]
    · have := cleanLoop_fuel false ((c :: t).length + 1) (c :: t).length (c :: t) [] 0
        (by omega) (le_refl _)
      simp only [Clean, cleanState, hc, decide_False, if_false, Bool.false_eq_true, ← this]

/-- The state of the loop of `Clean` after `P ++ B`, where `B` is empty or
starts with `/`, is the state after `P` carried through `B`. -/
theorem cleanState_append (P B : Bytes) (hP : P ≠ []) (hB : B = [] ∨ B.head? = some slash) :
    cleanState (P ++ B)
      = cleanLoop (isRooted P) B.length B (cleanState P).1 (cleanState P).2 := by
  cases P with
  | nil => exact absurd rfl hP
  | cons c t =>
    by_cases hc : c = slash
    · have := cleanLoop_append true t.length t B [slash] 1 (le_refl _) hB
      simp only [cleanState, List.cons_append, hc, if_true, isRooted, List.head?_cons,
        decide_True, List.length_append, this]
    · have := cleanLoop_append false (c :: t).length (c :: t) B [] 0 (le_refl _) hB
      have hr : isRooted (c :: t) = false := by
        simp [isRooted, hc]
      simp only [List.cons_append] at this
      simp only [cleanState, List.cons_append, hc, if_false, hr, List.length_cons,
        List.length_append]
      simp only [List.length_cons] at this
      rw [← this]
      congr 1
      omega

/-- A path in `Clean` form is not empty, and the loop of `Clean` ends on it
with the path itself as output, or with the empty output when the path is
`.`. -/
theorem cleanState_of_clean (P : Bytes) (hP : Clean P = P) :
    P ≠ [] ∧ ((P = [dot] ∧ (cleanState P).1 = []) ∨ (P ≠ [dot] ∧ (cleanState P).1 = P)) := by
  have hne : P ≠ [] := by
    intro h0
    rw [h0] at hP
    exact absurd hP (by decide)
  refine ⟨hne, ?_⟩
  rw [Clean_eq_cleanState P hne] at hP
  by_cases hl : (cleanState P).1.length = 0
  · rw [if_pos hl] at hP
    exact Or.inl ⟨hP.symm, List.length_eq_zero.mp hl⟩
  · rw [if_neg hl] at hP
    refine Or.inr ⟨?_, hP⟩
    intro hd
    rw [hd] at hl
    exact hl (by decide)

/-- The part of a path up to its last `/`, when the path is `X` followed by a
name without `/` and `X` is empty or ends with `/`. -/
theorem upToLastSlash_append_name (X n : Bytes) (hn : slash ∉ n)
    (hX : X.reverse = [] ∨ X.reverse.head? = some slash) :
    upToLastSlash (X ++ n) = X := by
  unfold upToLastSlash
  have hall : ∀ b ∈ n.reverse, decide (b ≠ slash) = true := by
    intro b hb
    simp only [ne_eq, decide_not, Bool.not_eq_true', decide_eq_false_iff_not]
    intro hbs
    exact hn (hbs ▸ List.mem_reverse.mp hb)
  have h1 : (n.reverse ++ X.reverse).dropWhile (fun b => decide (b ≠ slash))
      = n.reverse.dropWhile (fun b => decide (b ≠ slash)) ++ X.reverse :=
    dropWhile_append_boundary n.reverse X.reverse hX
  rw [List.reverse_append, h1, List.dropWhile_eq_nil_iff.mpr hall, List.nil_append,
    List.reverse_reverse]

/-- For a directory at a path in `Clean` form and a valid entry name,
`filepath.Join` gives the path followed by `/` and the name, without the `/`
when the path is `/`, and the bare name when the path is `.`. -/
theorem Join_of_clean (P n : Bytes) (hP : Clean P = P) (hv : validName n) :
    Join P n = childBase P ++ n := by
  obtain ⟨hne, hst⟩ := cleanState_of_clean P hP
  have hPB : P ++ slash :: n ≠ [] := by
    intro h0
    exact hne (List.append_eq_nil.mp h0).1
  have hstate : cleanState (P ++ slash :: n)
      = ((if (isRooted P = true ∧ (cleanState P).1.length ≠ 1)
              ∨ (isRooted P = false ∧ (cleanState P).1.length ≠ 0)
            then (cleanState P).1 ++ [slash] else (cleanState P).1) ++ n, (cleanState P).2) := by
    rw [cleanState_append P (slash :: n) hne (Or.inr rfl)]
    simp only [List.length_cons, cleanLoop, if_true]
    exact cleanLoop_name _ n hv _ (le_refl _) _ _
  have hJ : Join P n = Clean (P ++ slash :: n) := by
    simp only [Join, hne, ne_eq, not_false_eq_true, if_true, List.append_assoc,
      List.singleton_append]
  rw [hJ, Clean_eq_cleanState _ hPB, hstate]
  have hnn : n ≠ [] := hv.1
  have hlen : ∀ (o : Bytes), ¬ ((o ++ n).length = 0) := by
    intro o h0
    exact hnn (List.append_eq_nil.mp (List.length_eq_zero.mp h0)).2
  simp only [hlen, if_false]
  congr 1
  rcases hst with ⟨hd, hs⟩ | ⟨hd, hs⟩
  · subst hd
    rw [hs]
    decide
  · rw [hs]
    cases hr : isRooted P with
    | true =>
      have hhead : P.head? = some slash := by simpa [isRooted] using hr
      by_cases h1 : P.length = 1
      · have hsl : P = [slash] := by
          cases P with
          | nil => exact absurd rfl hne
          | cons c t =>
            simp only [List.head?_cons, Option.some.injEq] at hhead
            simp only [List.length_cons, Nat.add_left_eq_self] at h1
            rw [hhead, List.length_eq_zero.mp h1]
        simp [childBase, hsl]
      · have hsl : P ≠ [slash] := fun h => h1 (by rw [h]; rfl)
        simp [childBase, h1, hsl, hd]
    | false =>
      have hsl : P ≠ [slash] := by
        intro h
        rw [h] at hr
        exact absurd hr (by decide)
      have h0 : P.length ≠ 0 := fun h => hne (List.length_eq_zero.mp h)
      simp [childBase, h0, hsl, hd]

/-- Appending a `/` to a non-empty path does not change what `Clean` makes of
it. -/
theorem Clean_append_slash (P : Bytes) (hne : P ≠ []) : Clean (P ++ [slash]) = Clean P := by
  have hPB : P ++ [slash] ≠ [] := by simp
  have hs : cleanState (P ++ [slash]) = cleanState P := by
    rw [cleanState_append P [slash] hne (Or.inr rfl)]
    simp [cleanLoop]
  rw [Clean_eq_cleanState _ hPB, Clean_eq_cleanState _ hne, hs]

/-- The path `filepath.Join` gives for an entry of a directory at a path in
`Clean` form is again in `Clean` form. -/
theorem Clean_child (P n : Bytes) (hP : Clean P = P) (hv : validName n) :
    Clean (childBase P ++ n) = childBase P ++ n := by
  obtain ⟨hne, _⟩ := cleanState_of_clean P hP
  have hnn : n ≠ [] := hv.1
  have hlen : ∀ (o : Bytes), ¬ ((o ++ n).length = 0) := by
    intro o h0
    exact hnn (List.append_eq_nil.mp (List.length_eq_zero.mp h0)).2
  by_cases h1 : P = [slash]
  · have hPB : slash :: n ≠ [] := by simp
    have := cleanLoop_name true n hv n.length (le_refl _) [slash] 1
    simp only [childBase, h1, if_true, List.singleton_append]
    rw [Clean_eq_cleanState _ hPB]
    simp only [cleanState, if_true, this]
    simp
  · by_cases h2 : P = [dot]
    · have hcb : childBase P = [] := by rw [h2]; decide
      rw [hcb, List.nil_append]
      have hs : slash ∉ n := hv.2.1
      cases n with
      | nil => exact absurd rfl hnn
      | cons c t =>
        have hc : ¬ c = slash := fun h => hs (by simp [h])
        have := cleanLoop_name false (c :: t) hv (c :: t).length (le_refl _) [] 0
        rw [Clean_eq_cleanState _ hnn]
        simp only [cleanState, hc, if_false, this]
        simp
    · have hJ := Join_of_clean P n hP hv
      have hJ2 : Join P n = Clean (P ++ [slash] ++ n) := by
        simp only [Join, hne, ne_eq, not_false_eq_true, if_true]
      simp only [childBase, h1, h2, if_false] at hJ ⊢
      rw [← hJ2]
      exact hJ

/-- The parent that `filepath.Dir` computes for the path of an entry of a
directory at a path in `Clean` form is the path of the directory. -/
theorem Dir_child (P n : Bytes) (hP : Clean P = P) (hv : validName n) :
    Dir (childBase P ++ n) = P := by
  obtain ⟨hne, _⟩ := cleanState_of_clean P hP
  have hs : slash ∉ n := hv.2.1
  unfold Dir
  by_cases h1 : P = [slash]
  · have hcb : childBase P = [slash] := by rw [h1]; decide
    rw [hcb, upToLastSlash_append_name [slash] n hs (Or.inr rfl), h1]
    decide
  · by_cases h2 : P = [dot]
    · have hcb : childBase P = [] := by rw [h2]; decide
      rw [hcb, upToLastSlash_append_name [] n hs (Or.inl rfl), h2]
      decide
    · have hcb : childBase P = P ++ [slash] := by simp only [childBase, h1, h2, if_false]
      rw [hcb, upToLastSlash_append_name _ n hs (by simp), Clean_append_slash P hne, hP]

/-! ## The paths of a well-formed tree below a root in `Clean` form -/

/-- Two names without `/`, each followed by nothing or by something that
starts with `/`, are equal when the two sequences are. -/
theorem name_unique (n1 n2 s1 s2 : Bytes) (h1 : slash ∉ n1) (h2 : slash ∉ n2)
    (hs1 : s1 = [] ∨ s1.head? = some slash) (hs2 : s2 = [] ∨ s2.head? = some slash)
    (h : n1 ++ s1 = n2 ++ s2) : n1 = n2 := by
  have key : ∀ (n s : Bytes), slash ∉ n → (s = [] ∨ s.head? = some slash) →
      (n ++ s).takeWhile (fun b => decide (b ≠ slash)) = n := by
    intro n s hn hs
    rw [takeWhile_append_boundary n s hs]
    apply List.takeWhile_eq_self_iff.mpr
    intro b hb
    simp only [ne_eq, decide_not, Bool.not_eq_true', decide_eq_false_iff_not]
    intro hbs
    exact hn (hbs ▸ hb)
  rw [← key n1 s1 h1 hs1, h, key n2 s2 h2 hs2]

/-- The path of an entry of a directory is neither `/` nor `.`, so its own
entries are joined to it with a `/`. -/
theorem childBase_child (P n : Bytes) (hv : validName n) :
    childBase (childBase P ++ n) = childBase P ++ n ++ [slash] := by
  obtain ⟨hne, hns, hnd, _⟩ := hv
  have h1 : childBase P ++ n ≠ [slash] := by
    intro h
    cases hb : childBase P with
    | nil =>
      rw [hb, List.nil_append] at h
      exact hns (by rw [h]; simp)
    | cons b bs =>
      rw [hb] at h
      simp only [List.cons_append, List.cons.injEq, List.append_eq_nil] at h
      exact hne h.2.2
  have h2 : childBase P ++ n ≠ [dot] := by
    intro h
    cases hb : childBase P with
    | nil =>
      rw [hb, List.nil_append] at h
      exact hnd h
    | cons b bs =>
      rw [hb] at h
      simp only [List.cons_append, List.cons.injEq, List.append_eq_nil] at h
      exact hne h.2.2
  rw [childBase]
  simp only [h1, h2, if_false]

/-- The path of a directory in `Clean` form is not the path of anything below
it. -/
theorem child_ne_self (P m s : Bytes) (hv : validName m) : childBase P ++ m ++ s ≠ P := by
  obtain ⟨hne, _, hnd, _⟩ := hv
  intro h
  by_cases h1 : P = [slash]
  · have hcb : childBase P = [slash] := by rw [h1]; decide
    rw [hcb, h1] at h
    simp only [List.singleton_append, List.cons_append, List.cons.injEq, List.append_eq_nil,
      true_and] at h
    exact hne h.1
  · by_cases h2 : P = [dot]
    · have hcb : childBase P = [] := by rw [h2]; decide
      rw [hcb, h2, List.nil_append] at h
      cases m with
      | nil => exact hne rfl
      | cons c t =>
        simp only [List.cons_append, List.cons.injEq, List.append_eq_nil] at h
        exact hnd (by rw [h.1, h.2.1])
    · have hcb : childBase P = P ++ [slash] := by simp only [childBase, h1, h2, if_false]
      rw [hcb] at h
      have := congrArg List.length h
      simp only [List.length_append, List.length_cons, List.length_nil] at this
      omega

mutual
/-- For a well-formed directory tree found at a path in `Clean` form: the
parent computed for every file is the path of its directory, the path of
every directory of the tree is the path of the tree or lies below it, and
these paths are pairwise distinct. -/
theorem tree_ok (c : Node) (Q : Bytes) (hQ : Clean Q = Q) (hwf : wellFormed c = true) :
    dirOfJoinOk Q c
      ∧ (∀ k ∈ (expectedIndex Q c).keys,
          k = Q ∨ ∃ m s, validName m ∧ (s = [] ∨ s.head? = some slash)
            ∧ k = childBase Q ++ m ++ s)
      ∧ (expectedIndex Q c).keys.Nodup := by
  match c with
  | .file n =>
    simp [dirOfJoinOk, expectedIndex, GoMap.keys]
  | .dir n kids =>
    simp only [wellFormed, Bool.and_eq_true, decide_eq_true_eq, List.all_eq_true] at hwf
    obtain ⟨⟨hnd, hval⟩, hkids⟩ := hwf
    obtain ⟨h1, h2, h3⟩ := list_ok kids Q hQ hval hnd hkids
    refine ⟨by simpa [dirOfJoinOk] using h1, ?_, ?_⟩
    · intro k hk
      simp only [expectedIndex, GoMap.keys, List.map_cons, List.mem_cons] at hk
      rcases hk with hk | hk
      · exact Or.inl hk
      · obtain ⟨c2, hc2, s, hs, hb⟩ := h2 k hk
        exact Or.inr ⟨c2.name, s, hval c2 hc2, hb, hs⟩
    · simp only [expectedIndex, GoMap.keys, List.map_cons, List.nodup_cons]
      refine ⟨?_, h3⟩
      intro hin
      obtain ⟨c2, hc2, s, hs, _⟩ := h2 Q hin
      exact child_ne_self Q c2.name s (hval c2 hc2) hs.symm
/-- The same for the entries of a directory found at a path in `Clean` form:
every directory path below lies under the name of one of the entries. -/
theorem list_ok (cs : List Node) (P : Bytes) (hP : Clean P = P)
    (hval : ∀ c ∈ cs, validName c.name) (hnd : (cs.map Node.name).Nodup)
    (hwf : wellFormedList cs = true) :
    dirOfJoinOkList P cs
      ∧ (∀ k ∈ (expectedIndexChildren P cs).keys,
          ∃ c ∈ cs, ∃ s, k = childBase P ++ c.name ++ s ∧ (s = [] ∨ s.head? = some slash))
      ∧ (expectedIndexChildren P cs).keys.Nodup := by
  match cs with
  | [] =>
    simp [dirOfJoinOkList, expectedIndexChildren, GoMap.keys]
  | c :: rest =>
    simp only [wellFormedList, Bool.and_eq_true] at hwf
    have hvc : validName c.name := hval c (List.mem_cons_self _ _)
    have hJ := Join_of_clean P c.name hP hvc
    have hQ : Clean (Join P c.name) = Join P c.name := by
      rw [hJ]; exact Clean_child P c.name hP hvc
    obtain ⟨t1, t2, t3⟩ := tree_ok c (Join P c.name) hQ hwf.1
    simp only [List.map_cons, List.nodup_cons] at hnd
    obtain ⟨r1, r2, r3⟩ := list_ok rest P hP
      (fun x hx => hval x (List.mem_cons_of_mem _ hx)) hnd.2 hwf.2
    have hform : ∀ k ∈ (expectedIndex (Join P c.name) c).keys,
        ∃ s, k = childBase P ++ c.name ++ s ∧ (s = [] ∨ s.head? = some slash) := by
      intro k hk
      rcases t2 k hk with hk | ⟨m, s, _, hs, hk⟩
      · exact ⟨[], by rw [hk, hJ, List.append_nil], Or.inl rfl⟩
      · refine ⟨slash :: (m ++ s), ?_, Or.inr rfl⟩
        rw [hk, hJ, childBase_child P c.name hvc]
        simp only [List.append_assoc, List.singleton_append, List.cons_append, List.nil_append]
    refine ⟨⟨?_, t1, r1⟩, ?_, ?_⟩
    · intro _
      rw [hJ]
      exact Dir_child P c.name hP hvc
    · intro k hk
      simp only [expectedIndexChildren, GoMap.keys, List.map_append, List.mem_append] at hk
      rcases hk with hk | hk
      · obtain ⟨s, hs⟩ := hform k hk
        exact ⟨c, List.mem_cons_self _ _, s, hs⟩
      · obtain ⟨c2, hc2, s, hs⟩ := r2 k hk
        exact ⟨c2, List.mem_cons_of_mem _ hc2, s, hs⟩
    · simp only [expectedIndexChildren, GoMap.keys, List.map_append]
      refine List.nodup_append.mpr ⟨t3, r3, ?_⟩
      intro k hk1 hk2
      obtain ⟨s1, hs1, hb1⟩ := hform k hk1
      obtain ⟨c2, hc2, s2, hs2, hb2⟩ := r2 k hk2
      have heq : c.name ++ s1 = c2.name ++ s2 := by
        have := hs1.symm.trans hs2
        simp only [List.append_assoc] at this
        exact List.append_cancel_left this
      have hname := name_unique c.name c2.name s1 s2 hvc.2.1
        (hval c2 (List.mem_cons_of_mem _ hc2)).2.1 hb1 hb2 heq
      exact hnd.1 (by rw [hname]; exact List.mem_map.mpr ⟨c2, hc2, rfl⟩)
end

mutual
/-- The expected index has one entry per directory of the tree. -/
theorem expectedIndex_length (path : Bytes) (t : Node) :
    (expectedIndex path t).length = countDirs t := by
  match t with
  | .file _ => rfl
  | .dir _ cs =>
    simp only [expectedIndex, countDirs, List.length_cons, expectedIndexChildren_length path cs]
    omega
/-- The expected index of the entries of a directory has one entry per
directory below them. -/
theorem expectedIndexChildren_length (path : Bytes) (cs : List Node) :
    (expectedIndexChildren path cs).length = countDirsList cs := by
  match cs with
  | [] => rfl
  | c :: rest =>
    simp only [expectedIndexChildren, countDirsList, List.length_append,
      expectedIndex_length (Join path c.name) c, expectedIndexChildren_length path rest]
end

set_option maxRecDepth 20000 in
/-- C8, as stated, fails: the tree is one directory `x` holding the file `a`,
walked from the root path `x/`. The map has two keys for the one directory:
the key the directory was visited with, `x/`, holds no name, and the file is
listed under `x`. -/
theorem walk_unclean_root_splits_directory :
    countDirs (.dir (str "x") [.file (str "a")]) = 1
    ∧ wellFormed (.dir (str "x") [.file (str "a")]) = true
    ∧ Walk (str "x/") (.dir (str "x") [.file (str "a")]) ⟨none⟩
        = (.returned none, ⟨some [(str "x/", []), (str "x", [str "a"])]⟩) := by
  decide

/-- C8, amended. For every well-formed directory tree rooted at a directory
whose root path is in the form `filepath.Clean` returns, `filepath.Walk` with
a fresh `indexWalker` returns nil and leaves a map that is the expected
index: one entry per directory of the tree and no other, in pre-order, keyed
by the pairwise distinct paths of the directories, each holding the names of
exactly the immediate non-directory entries of that directory in visit
order. The method `walk` returns nil on every node it is given. -/
theorem walk_builds_expected_index (root name : Bytes) (cs : List Node)
    (hRoot : Clean root = root) (hwf : wellFormed (.dir name cs) = true) :
    Walk root (.dir name cs) ⟨none⟩
        = (.returned none, ⟨some (expectedIndex root (.dir name cs))⟩)
    ∧ (expectedIndex root (.dir name cs)).keys.Nodup
    ∧ (expectedIndex root (.dir name cs)).length = countDirs (.dir name cs)
    ∧ (∀ (i : indexWalker) (path : Bytes) (info : FileInfo),
        (i.walk path (some info)).1 = .returned none) := by
  obtain ⟨hok, _, hnd⟩ := tree_ok (.dir name cs) root hRoot hwf
  refine ⟨?_, hnd, expectedIndex_length root _, fun i path info => rfl⟩
  have := walkNode_dir_spec name cs root ⟨none⟩ [] rfl hok (by simpa [GoMap.keys] using hnd)
  simpa [Walk] using this

set_option maxRecDepth 20000 in
/-- C8 amended, at a concrete input: a directory with two files and a nested
directory with one file, walked from `/tmp/doc-server`. -/
theorem walk_builds_expected_index_witness :
    (Walk (str "/tmp/doc-server")
        (.dir (str "doc-server")
          [.file (str "test_0.md"), .dir (str "nested") [.file (str "test_0.md")],
           .file (str "test_1.md")]) ⟨none⟩
        = (.returned none, ⟨some (expectedIndex (str "/tmp/doc-server") sampleTree)⟩)
      ∧ (expectedIndex (str "/tmp/doc-server") sampleTree).keys.Nodup
      ∧ (expectedIndex (str "/tmp/doc-server") sampleTree).length = countDirs sampleTree
      ∧ (∀ (i : indexWalker) (path : Bytes) (info : FileInfo),
          (i.walk path (some info)).1 = .returned none))
    ∧ expectedIndex (str "/tmp/doc-server") sampleTree
        = [(str "/tmp/doc-server", [str "test_0.md", str "test_1.md"]),
           (str "/tmp/doc-server/nested", [str "test_0.md"])] :=
  ⟨walk_builds_expected_index (str "/tmp/doc-server") (str "doc-server")
      [.file (str "test_0.md"), .dir (str "nested") [.file (str "test_0.md")],
       .file (str "test_1.md")] (by decide) (by decide),
   by decide⟩

end MdServer
